import Mathlib

set_option maxRecDepth 40000

/-!
Verification development for the stellar-pq Falcon-512 verifier.

The Rust sources embedded here are
`contracts/soroban-falcon-verifier/src/verify.rs` and `lib.rs`, and
`contracts/soroban-falcon-smart-account/src/lib.rs`.  Byte slices are
modelled as `List Nat` (each element a `u8`, i.e. `< 256`), `u32`
arithmetic is `Nat` arithmetic with explicit reduction mod `2^32`, and
`i16`/`i32` values are `Int`.

The SHAKE256 extendable-output function (the external `sha3` crate) is
abstracted as a byte stream `xof : Nat → Nat`: position `p` holds the
`p`-th output byte of SHAKE256 over `nonce ‖ message`.  The rejection
sampling loop of `hash_to_point` is given an explicit attempt budget
`fuel`, since its termination depends only on the external stream.

The module `ntt.rs` is declared by both crates but is not part of the
sources; the ring operations it provides are modelled from the spec
(section 4.1 and section 8), see `mq_poly_mul`, `mq_poly_sub`,
`ntt_forward` and `ntt_inverse` below.
-/

namespace StellarPQ

/-- Result of running a piece of the Rust code.  `crash` models a panic
(an out-of-bounds slice index, or a shift by 32 or more bits, which
panics for `u32` in debug builds); `fail` models the decoders' error
result (`false`, or a returned byte count of 0); `ok` carries the value
produced on success. -/
inductive DRes (α : Type) where
  | crash : DRes α
  | fail : DRes α
  | ok : α → DRes α
deriving Repr, DecidableEq

/-- Modulus of `u32` arithmetic. -/
def U32 : Nat := 4294967296

/-- Ring modulus `Q = 12289` of `lib.rs`. -/
def Q : Nat := 12289

/-- Squared L2 norm bound `L2_BOUND_512 = 34034726` of `lib.rs`. -/
def L2_BOUND_512 : Nat := 34034726

/-- One iteration of the accumulation in `FalconVerifier::is_short`:
add one squared term to the running `u32` sum with wrap-around, and OR
the new sum into the overflow detector `ng`. -/
def is_short_step (st : Nat × Nat) (t : Nat) : Nat × Nat :=
  let s := (st.1 + t) % U32
  (s, st.2 ||| s)

/-- Squared term `(z as i32 * z as i32) as u32` for an `i16` value `z`:
the square of an `i16` is at most `2^30`, so it is nonnegative and fits
`i32`, and the `u32` cast is the numeric value. -/
def sqTerm (z : Int) : Nat := (z * z).toNat

/-- FalconVerifier::is_short from `verify.rs`: squared-norm check of
`(s1, s2)` hardened against `u32` overflow.  The loop interleaves the
terms `s1[i]^2, s2[i]^2` in order; afterwards, if the sign bit of the
sticky register `ng` is set, `s` is forced to `0xFFFFFFFF` by OR-ing
`0u32.wrapping_sub(ng >> 31)` into it. -/
def is_short (s1 s2 : List Int) : Bool :=
  let terms := (s1.zip s2).flatMap fun p => [sqTerm p.1, sqTerm p.2]
  let st := terms.foldl is_short_step (0, 0)
  let s := st.1 ||| ((U32 - (st.2 >>> 31)) % U32)
  decide (s ≤ L2_BOUND_512)

/-- Loop of `FalconVerifier::decode_pubkey`: processes the remaining
bytes `rem` of the 896-byte payload with bit accumulator `acc` (a
`u32`), `acc_len` buffered bits, `u` coefficients already produced into
`hacc`.  Reading past the end of the data (`data[buf_idx]`) is a panic,
modelled by `crash`; so is a shift by 32 or more bits. -/
def pk_loop : List Nat → Nat → Nat → Nat → List Nat → DRes (List Nat)
  | rem, acc, acc_len, u, hacc =>
    if u ≥ 512 then
      -- after the loop: any leftover low bits must be zero
      if acc_len ≥ 32 then .crash
      else if acc &&& ((1 <<< acc_len) - 1) ≠ 0 then .fail
      else .ok hacc
    else
      match rem with
      | [] => .crash
      | b :: rest =>
        let acc' := ((acc <<< 8) % U32) ||| b
        let n1 := acc_len + 8
        if n1 ≥ 14 then
          let n2 := n1 - 14
          if n2 ≥ 32 then .crash
          else
            let w := (acc' >>> n2) &&& 0x3FFF
            if w ≥ Q then .fail
            else pk_loop rest acc' n2 (u + 1) (hacc ++ [w])
        else pk_loop rest acc' n1 u hacc

/-- FalconVerifier::decode_pubkey from `verify.rs`. -/
def decode_pubkey (pubkey : List Nat) : DRes (List Nat) :=
  if pubkey.length ≠ 897 then .fail
  else if pubkey.getD 0 0 ≠ 9 then .fail
  else pk_loop (pubkey.drop 1) 0 0 0 []

/-- Refill step at the top of the unary loop of
`decode_sig_compressed`: when the accumulator is empty, read one more
byte (`if v >= data.len() return 0` on exhaustion, hence `fail`).
The not-yet-read bytes are carried as the suffix `rem`, and `v` counts
the bytes read so far, matching the source's index into `data`. -/
def comp_refill (rem : List Nat) (v acc acc_len : Nat) :
    DRes (List Nat × Nat × Nat × Nat) :=
  if acc_len = 0 then
    match rem with
    | [] => .fail
    | b :: rest => .ok (rest, v + 1, ((acc <<< 8) % U32) ||| b, 8)
  else .ok (rem, v, acc, acc_len)

/-- Unary-part loop of `decode_sig_compressed`: consume bits until a 1
bit terminates the run, adding 128 to `m` for every 0 bit and rejecting
once `m > 2047`.  The source loop terminates because of that bound;
`fuel` makes the recursion structural, and exhaustion (modelled as
`crash`) is unreachable when called with `fuel = 17` since `m` starts
at most 127.  Returns the updated `(rem, v, acc, acc_len, m)`. -/
def comp_unary :
    Nat → List Nat → Nat → Nat → Nat → Nat →
      DRes (List Nat × Nat × Nat × Nat × Nat)
  | 0, _, _, _, _, _ => .crash
  | fuel + 1, rem, v, acc, acc_len, m =>
    match comp_refill rem v acc acc_len with
    | .crash => .crash
    | .fail => .fail
    | .ok (rem', v', acc', len1) =>
      let len2 := len1 - 1
      if len2 ≥ 32 then .crash
      else if (acc' >>> len2) &&& 1 ≠ 0 then .ok (rem', v', acc', len2, m)
      else
        let m' := m + 128
        if m' > 2047 then .fail
        else comp_unary fuel rem' v' acc' len2 m'

/-- Per-coefficient loop of `FalconVerifier::decode_sig_compressed`
(`for u in 0..FALCON_512_N`), structurally recursive on the number of
coefficients still to produce. -/
def comp_loop :
    Nat → List Nat → Nat → Nat → Nat → List Int → DRes (Nat × List Int)
  | 0, _, v, acc, acc_len, s2 =>
    -- all coefficients produced: leftover bits in the accumulator must be zero
    if acc_len ≥ 32 then .crash
    else if acc &&& ((1 <<< acc_len) - 1) ≠ 0 then .fail
    else .ok (v, s2)
  | count + 1, rem, v, acc, acc_len, s2 =>
    match rem with
    | [] => .fail
    | byte :: rest =>
      let acc' := ((acc <<< 8) % U32) ||| byte
      if acc_len ≥ 32 then .crash
      else
        let b := acc' >>> acc_len
        let sign := b &&& 128
        let m := b &&& 127
        match comp_unary 17 rest (v + 1) acc' acc_len m with
        | .crash => .crash
        | .fail => .fail
        | .ok (rem2, v2, acc2, len2, m2) =>
          if sign ≠ 0 ∧ m2 = 0 then .fail
          else
            let c : Int := if sign ≠ 0 then -(m2 : Int) else (m2 : Int)
            comp_loop count rem2 v2 acc2 len2 (s2 ++ [c])

/-- FalconVerifier::decode_sig_compressed from `verify.rs`.  A `fail`
result corresponds to the source returning 0; a successful run returns
the byte count `v` actually read (always positive) and the 512
coefficients. -/
def decode_sig_compressed (data : List Nat) : DRes (Nat × List Int) :=
  comp_loop 512 data 0 0 0 []

/-- Inner extraction loop of `decode_sig_ct`
(`while acc_len >= BITS && u < n`): extract 12-bit fields, sign-extend,
compare against the encoding of the sign-bit pattern, and store as
`i16`.  `fuel` makes the recursion structural; called with
`fuel = acc_len` it is never exhausted since every iteration removes 12
bits.  Returns `(acc_len, u, s2)`. -/
def ct_inner (acc : Nat) :
    Nat → Nat → Nat → List Int → DRes (Nat × Nat × List Int)
  | 0, acc_len, u, s2 =>
    if acc_len ≥ 12 ∧ u < 512 then .crash else .ok (acc_len, u, s2)
  | fuel + 1, acc_len, u, s2 =>
    if acc_len ≥ 12 ∧ u < 512 then
      let len' := acc_len - 12
      if len' ≥ 32 then .crash
      else
        let w := (acc >>> len') &&& 4095
        -- sign extension: if bit 11 is set, set all upper bits of the u32
        let w' := if w &&& 2048 ≠ 0 then w ||| (U32 - 4096) else w
        -- the source's check `w == (0u32.wrapping_sub(mask2) & mask1)`
        if w' = ((U32 - 2048) % U32) &&& 4095 then .fail
        else
          -- `s2[u] = w as i16`: truncate to 16 bits, two's complement
          let c : Int :=
            if w' % 65536 ≥ 32768 then (w' % 65536 : Int) - 65536
            else (w' % 65536 : Int)
          ct_inner acc fuel len' (u + 1) (s2 ++ [c])
    else .ok (acc_len, u, s2)

/-- Outer loop of `decode_sig_ct` (`while u < n`): read one byte at a
time (an out-of-bounds `data[buf_idx]` is a panic, hence `crash`),
then run the inner extraction loop. -/
def ct_loop : List Nat → Nat → Nat → Nat → List Int → DRes (List Int)
  | rem, acc, acc_len, u, s2 =>
    if u ≥ 512 then
      -- after the loop: any leftover bits must be zero
      if acc_len ≥ 32 then .crash
      else if acc &&& ((1 <<< acc_len) - 1) ≠ 0 then .fail
      else .ok s2
    else
      match rem with
      | [] => .crash
      | b :: rest =>
        let acc' := ((acc <<< 8) % U32) ||| b
        let len1 := acc_len + 8
        match ct_inner acc' len1 len1 u s2 with
        | .crash => .crash
        | .fail => .fail
        | .ok (len2, u', s2') => ct_loop rest acc' len2 u' s2'

/-- FalconVerifier::decode_sig_ct from `verify.rs`: constant-time
(12-bit) format.  Requires at least `in_len = 512*12/8 = 768` bytes and
on success returns exactly `in_len`. -/
def decode_sig_ct (data : List Nat) : DRes (Nat × List Int) :=
  if data.length < 768 then .fail
  else
    match ct_loop data 0 0 0 [] with
    | .crash => .crash
    | .fail => .fail
    | .ok s2 => .ok (768, s2)

/-- Reduction loop `while v >= Q v -= Q` of `hash_to_point`, with a
structural bound: five iterations always suffice for the accepted
16-bit words (`w < 5*Q`). -/
def mq_conv : Nat → Nat → Nat
  | 0, v => v
  | f + 1, v => if v ≥ Q then mq_conv f (v - Q) else v

/-- Sampling loop of `FalconVerifier::hash_to_point`: read two XOF
bytes big-endian into a 16-bit word, accept it if below `5*Q = 61445`,
reduce mod `Q` and append.  `fuel` bounds the number of attempts;
`none` means the budget was exhausted before 512 coefficients were
accepted. -/
def htp_loop (xof : Nat → Nat) :
    Nat → Nat → Nat → List Nat → Option (List Nat)
  | 0, _, remaining, c0 => if remaining = 0 then some c0 else none
  | fuel + 1, pos, remaining, c0 =>
    if remaining = 0 then some c0
    else
      let w := ((xof pos % 256) <<< 8) ||| (xof (pos + 1) % 256)
      if w < 61445 then
        htp_loop xof fuel (pos + 2) (remaining - 1) (c0 ++ [mq_conv 5 w])
      else htp_loop xof fuel (pos + 2) remaining c0

/-- FalconVerifier::hash_to_point from `verify.rs`, over the abstract
SHAKE256 output stream `xof`. -/
def hash_to_point (xof : Nat → Nat) (fuel : Nat) : Option (List Nat) :=
  htp_loop xof fuel 0 512 []

/-- Pointwise sum of two integer polynomials (coefficient lists). -/
def poly_add_int : List Int → List Int → List Int
  | [], ys => ys
  | xs, [] => xs
  | x :: xs, y :: ys => (x + y) :: poly_add_int xs ys

/-- Linear convolution of two integer polynomials. -/
def poly_conv : List Int → List Int → List Int
  | [], _ => []
  | x :: xs, b => poly_add_int (b.map fun y => x * y) (0 :: poly_conv xs b)

/-- Modelled from the spec: the missing module `ntt.rs` provides
`poly_prepare_for_mul`, `ntt_forward`, `poly_pointwise_mul` and
`ntt_inverse`, whose composition computes the product in the ring
Z_q[X]/(X^512+1) (spec section 4.1; section 8 states the NTT pipeline
equals schoolbook multiplication).  This definition is that negacyclic
product, with all coefficients reduced into 0..Q-1. -/
def mq_poly_mul (a b : List Nat) : List Nat :=
  let c := poly_conv (a.map Int.ofNat) (b.map Int.ofNat)
  (List.range 512).map fun k =>
    ((c.getD k 0 - c.getD (k + 512) 0).emod (Q : Int)).toNat

/-- Modelled from the spec: `poly_sub` of the missing module `ntt.rs`:
componentwise `(a[i] - b[i]) mod q` with result in 0..Q-1 (spec
section 4.1). -/
def mq_poly_sub (a b : List Nat) : List Nat :=
  (List.range 512).map fun i =>
    ((Int.ofNat (a.getD i 0) - Int.ofNat (b.getD i 0)).emod (Q : Int)).toNat

/-- FalconVerifier::verify_raw_512 from `verify.rs`: lift `s2` to its
unsigned representation mod q (with the source's `u32` and `u16`
casts), multiply by `h` in the ring, subtract `c0`, re-center into
-6144..6144 and check the squared norm.  The NTT steps are composed
into `mq_poly_mul` (see there). -/
def verify_raw_512 (c0 : List Nat) (s2 : List Int) (h : List Nat) : Bool :=
  let tt := s2.map fun z =>
    (if z < 0 then ((z + (Q : Int)).emod (U32 : Int)).toNat else z.toNat) % 65536
  let prod := mq_poly_mul tt h
  let diff := mq_poly_sub prod c0
  -- center: values above Q/2 = 6144 represent negatives (w - Q); the
  -- result lies in -6144..6144 so the `as i16` cast is the identity
  let s1 : List Int := diff.map fun w =>
    if Int.ofNat w > 6144 then Int.ofNat w - (Q : Int) else Int.ofNat w
  is_short s1 s2

/-- FalconVerifier::verify_512 from `verify.rs`.  The nonce
`signature[1..41]` is absorbed (together with the message) into the
abstract SHAKE256 stream `xof`; `fuel` is the sampling budget of
`hash_to_point`.  `none` models a panic or an exhausted sampling
budget; every verification outcome is `some`. -/
def verify_512 (fuel : Nat) (xof : Nat → Nat) (pubkey signature : List Nat) :
    Option Bool :=
  if pubkey.length ≠ 897 then some false
  else if pubkey.getD 0 0 ≠ 9 then some false
  else if signature.length < 42 then some false
  else
    let sig_header := signature.getD 0 0
    if sig_header &&& 0x0F ≠ 9 then some false
    else
      let is_ct := sig_header &&& 0xF0 = 0x50
      let is_compressed := sig_header &&& 0xF0 = 0x30
      let is_padded := sig_header &&& 0xF0 = 0x20
      if ¬is_ct ∧ ¬is_compressed ∧ ¬is_padded then some false
      else
        match decode_pubkey pubkey with
        | .crash => none
        | .fail => some false
        | .ok h =>
          let sig_data := signature.drop 41
          match if is_ct then decode_sig_ct sig_data
                else decode_sig_compressed sig_data with
          | .crash => none
          | .fail => some false
          | .ok (decoded_len, s2) =>
            -- for the non-CT formats, remaining bytes after the encoded
            -- data must be zero
            if ¬is_ct ∧ decoded_len < sig_data.length ∧
                ((sig_data.drop decoded_len).any fun x => x ≠ 0) then
              some false
            else
              match hash_to_point xof fuel with
              | none => none
              | some c0 => some (verify_raw_512 c0 s2 h)

/-- FalconVerifierContract::verify from the verifier crate's `lib.rs`:
host-side entry point; checks the key size and the signature length
window 42..700, marshals the buffers (the message is truncated to 4096
bytes, which only affects the SHAKE input, hence the `xof` stream), and
calls `verify_512`. -/
def contract_verify (fuel : Nat) (xof : Nat → Nat)
    (public_key signature : List Nat) : Option Bool :=
  if public_key.length ≠ 897 then some false
  else if signature.length < 42 ∨ signature.length > 700 then some false
  else verify_512 fuel xof public_key signature

/-- Error enum of the smart-account crate's `lib.rs`. -/
inductive AccError where
  | invalidPublicKeySize
  | invalidSignatureSize
  | verificationFailed
deriving Repr, DecidableEq

/-- FalconSmartAccount::__check_auth from the smart-account crate's
`lib.rs`, for a stored public key `pubkey`.  The 32-byte signature
payload is the message, absorbed into `xof`.  The signature size is
checked first; then the stored key is marshalled into a 897-byte buffer
(`pubkey.get(i).unwrap()` panics, hence `none`, when the stored key is
shorter), and `verify_512` decides between `Ok` and
`VerificationFailed`. -/
def check_auth (fuel : Nat) (xof : Nat → Nat) (pubkey signature : List Nat) :
    Option (Except AccError Unit) :=
  if signature.length < 42 ∨ signature.length > 700 then
    some (Except.error AccError.invalidSignatureSize)
  else if pubkey.length < 897 then none
  else
    match verify_512 fuel xof (pubkey.take 897) signature with
    | none => none
    | some true => some (Except.ok ())
    | some false => some (Except.error AccError.verificationFailed)

/-! Bridges from the bitwise masks used by the decoders to division and
remainder, so that goals about them can be computed and decided. -/

theorem and_one_eq (x : Nat) : x &&& 1 = x % 2 :=
  Nat.and_pow_two_sub_one_eq_mod x 1

theorem and_127_eq (x : Nat) : x &&& 127 = x % 128 :=
  Nat.and_pow_two_sub_one_eq_mod x 7

theorem and_4095_eq (x : Nat) : x &&& 4095 = x % 4096 :=
  Nat.and_pow_two_sub_one_eq_mod x 12

theorem and_16383_eq (x : Nat) : x &&& 16383 = x % 16384 :=
  Nat.and_pow_two_sub_one_eq_mod x 14

theorem and_128_eq (x : Nat) : x &&& 128 = x / 128 % 2 * 128 := by
  rw [show (128 : Nat) = 2 ^ 7 by norm_num, Nat.and_two_pow]
  rw [Nat.testBit, Nat.shiftRight_eq_div_pow, Nat.one_and_eq_mod_two]
  rcases Nat.mod_two_eq_zero_or_one (x / 2 ^ 7) with h | h <;>
    (norm_num at h ⊢; simp [h])

theorem and_2048_eq (x : Nat) : x &&& 2048 = x / 2048 % 2 * 2048 := by
  rw [show (2048 : Nat) = 2 ^ 11 by norm_num, Nat.and_two_pow]
  rw [Nat.testBit, Nat.shiftRight_eq_div_pow, Nat.one_and_eq_mod_two]
  rcases Nat.mod_two_eq_zero_or_one (x / 2 ^ 11) with h | h <;>
    (norm_num at h ⊢; simp [h])

/-! Concrete inputs used by witnesses and counterexamples. -/

/-- The all-zero public key: header byte 9, then 896 zero payload bytes,
decoding to the zero polynomial. -/
def zeroPk : List Nat := 9 :: List.replicate 896 0

/-- Canonical compressed encoding of the zero polynomial: 512
coefficients of 9 bits each (sign 0, low bits 0, immediate unary
terminator), i.e. a 1 bit every 9 bits, 576 bytes in all. -/
def zeroBody : List Nat :=
  (List.replicate 64 [0, 128, 64, 32, 16, 8, 4, 2, 1]).flatten

/-- The all-zero XOF stream: every sampled 16-bit word is 0, which is
accepted immediately, so `hash_to_point` yields the zero polynomial. -/
def xof0 : Nat → Nat := fun _ => 0

/-- Compressed-format signature (header 0x39) whose body is the exact
encoding of the zero polynomial followed by one trailing zero byte. -/
def sigTrail : List Nat := 57 :: (List.replicate 40 0 ++ (zeroBody ++ [0]))

/-- Compressed-format signature of total length 701: header 0x39,
40-byte nonce, the 576-byte zero-polynomial body and 84 trailing zero
bytes. -/
def sig701 : List Nat :=
  57 :: (List.replicate 40 0 ++ (zeroBody ++ List.replicate 84 0))

/-- CT-format body whose first 12-bit field is the sign-bit pattern
0x800 (sign-extending to -2048) and whose remaining fields are zero. -/
def ctBody800 : List Nat := 128 :: List.replicate 767 0

/-- CT-format signature (header 0x59) with an all-zero 768-byte body:
total length 809. -/
def sigCT : List Nat := 89 :: (List.replicate 40 0 ++ List.replicate 768 0)

/-- The signature `sigCT` with one extra byte appended past offset 809. -/
def sigCTx : List Nat := sigCT ++ [7]

/-! Evaluation lemmas: closed-form runs of the loops on the concrete
inputs above, established block by block. -/

theorem htp_done (xof : Nat → Nat) (fuel pos : Nat) (c0 : List Nat) :
    htp_loop xof fuel pos 0 c0 = some c0 := by
  cases fuel <;> rfl

theorem htp_zero (k : Nat) : ∀ (fuel pos : Nat) (c0 : List Nat),
    htp_loop xof0 (fuel + k) pos k c0 = some (c0 ++ List.replicate k 0) := by
  induction k with
  | zero =>
    intro fuel pos c0
    simp [htp_done]
  | succ k ih =>
    intro fuel pos c0
    rw [show fuel + (k + 1) = (fuel + k) + 1 by omega]
    simp only [htp_loop, xof0]
    norm_num [mq_conv, Q]
    rw [ih]
    simp [List.replicate_succ]

theorem hash_to_point_xof0 :
    hash_to_point xof0 512 = some (List.replicate 512 0) := by
  have h := htp_zero 512 0 0 []
  simpa [hash_to_point] using h

theorem pk_zero_block (rest : List Nat) (u : Nat) (hacc : List Nat)
    (hu : u + 4 ≤ 512) :
    pk_loop (List.replicate 7 0 ++ rest) 0 0 u hacc
      = pk_loop rest 0 0 (u + 4) (hacc ++ List.replicate 4 0) := by
  have h1 : ¬ u ≥ 512 := by omega
  have h2 : ¬ u + 1 ≥ 512 := by omega
  have h3 : ¬ u + 2 ≥ 512 := by omega
  have h4 : ¬ u + 3 ≥ 512 := by omega
  norm_num [pk_loop, U32, Q, h1, h2, h3, h4, List.replicate_succ]

theorem pk_zeros (k : Nat) : ∀ (rest : List Nat) (u : Nat) (hacc : List Nat),
    u + 4 * k ≤ 512 →
    pk_loop (List.replicate (7 * k) 0 ++ rest) 0 0 u hacc
      = pk_loop rest 0 0 (u + 4 * k) (hacc ++ List.replicate (4 * k) 0) := by
  induction k with
  | zero =>
    intro rest u hacc h
    simp only [Nat.mul_zero, List.replicate_zero, List.nil_append,
      Nat.add_zero, List.append_nil]
  | succ k ih =>
    intro rest u hacc h
    rw [show 7 * (k + 1) = 7 + 7 * k by ring, List.replicate_add,
      List.append_assoc]
    rw [pk_zero_block _ _ _ (by omega)]
    rw [ih _ _ _ (by omega)]
    rw [show u + 4 + 4 * k = u + 4 * (k + 1) by ring]
    rw [List.append_assoc, ← List.replicate_add]
    rw [show 4 + 4 * k = 4 * (k + 1) by ring]

theorem decode_pubkey_zeroPk :
    decode_pubkey zeroPk = .ok (List.replicate 512 0) := by
  have hlen : zeroPk.length = 897 := by simp [zeroPk]
  have hget : zeroPk.getD 0 0 = 9 := rfl
  have hdrop : zeroPk.drop 1 = List.replicate 896 0 := rfl
  have h := pk_zeros 128 [] 0 [] (by omega)
  simp only [decode_pubkey, hlen, hget, hdrop]
  rw [if_neg (by norm_num : ¬ ((897 : Nat) ≠ 897))]
  rw [if_neg (by norm_num : ¬ ((9 : Nat) ≠ 9))]
  rw [show (List.replicate 896 (0 : Nat)) = List.replicate (7 * 128) 0 ++ [] by
    norm_num]
  rw [h]
  norm_num
  simp only [pk_loop]
  norm_num



theorem ct_zero_block (rest : List Nat) (u : Nat) (s2 : List Int)
    (hu : u + 2 ≤ 512) :
    ct_loop (0 :: 0 :: 0 :: rest) 0 0 u s2
      = ct_loop rest 0 0 (u + 2) (s2 ++ [0, 0]) := by
  have h1 : ¬ u ≥ 512 := by omega
  have h2 : u < 512 := by omega
  have h3 : u + 1 < 512 := by omega
  have hmask : (4294965248 : Nat) &&& 4095 = 2048 := by decide
  norm_num [ct_loop, ct_inner, U32, h1, h2, h3, hmask]

theorem ct_zeros (k : Nat) : ∀ (rest : List Nat) (u : Nat) (s2 : List Int),
    u + 2 * k ≤ 512 →
    ct_loop (List.replicate (3 * k) 0 ++ rest) 0 0 u s2
      = ct_loop rest 0 0 (u + 2 * k) (s2 ++ List.replicate (2 * k) 0) := by
  induction k with
  | zero =>
    intro rest u s2 h
    simp only [Nat.mul_zero, List.replicate_zero, List.nil_append,
      Nat.add_zero, List.append_nil]
  | succ k ih =>
    intro rest u s2 h
    rw [show 3 * (k + 1) = 3 + 3 * k by ring, List.replicate_add,
      List.append_assoc]
    have e3 : List.replicate 3 (0:Nat) = 0 :: 0 :: 0 :: [] := rfl
    rw [e3]
    rw [show ((0 :: 0 :: 0 :: []) ++ (List.replicate (3*k) 0 ++ rest) : List Nat)
      = 0 :: 0 :: 0 :: (List.replicate (3*k) 0 ++ rest) by simp]
    rw [ct_zero_block _ _ _ (by omega)]
    rw [ih _ _ _ (by omega)]
    rw [show u + 2 + 2 * k = u + 2 * (k + 1) by ring]
    rw [List.append_assoc]
    rw [show (([0, 0] : List Int) = List.replicate 2 0) by rfl,
      ← List.replicate_add]
    rw [show 2 + 2 * k = 2 * (k + 1) by ring]

theorem ct_loop_exit (rem : List Nat) (acc u : Nat) (s2 : List Int)
    (h : u ≥ 512) : ct_loop rem acc 0 u s2 = .ok s2 := by
  unfold ct_loop
  rw [if_pos h, if_neg (by omega : ¬ (0:Nat) ≥ 32)]
  norm_num

theorem decode_ct_zeros (t : List Nat) :
    decode_sig_ct (List.replicate 768 0 ++ t) = .ok (768, List.replicate 512 0) := by
  have hlen : (List.replicate 768 (0:Nat) ++ t).length = 768 + t.length := by
    rw [List.length_append, List.length_replicate]
  have h := ct_zeros 256 t 0 [] (by omega)
  norm_num at h
  simp only [decode_sig_ct, hlen]
  rw [if_neg (by omega)]
  rw [h]
  rw [ct_loop_exit _ _ _ _ (by omega)]

theorem comp_loop_exit (rem : List Nat) (v acc : Nat) (s2 : List Int) :
    comp_loop 0 rem v acc 0 s2 = .ok (v, s2) := by
  unfold comp_loop
  rw [if_neg (by omega : ¬ (0:Nat) ≥ 32)]
  norm_num


theorem comp_zero_block_core (rest : List Nat) (count v : Nat) (s2 : List Int) :
    comp_loop (count + 8) (([0, 128, 64, 32, 16, 8, 4, 2, 1] : List Nat) ++ rest)
      v 134480385 0 s2
      = comp_loop count rest (v + 9) 134480385 0
        (s2 ++ [0] ++ [0] ++ [0] ++ [0] ++ [0] ++ [0] ++ [0] ++ [0]) := by rfl

theorem comp_zero_block (rest : List Nat) (count v : Nat) (s2 : List Int) :
    comp_loop (count + 8) (([0, 128, 64, 32, 16, 8, 4, 2, 1] : List Nat) ++ rest)
      v 134480385 0 s2
      = comp_loop count rest (v + 9) 134480385 0 (s2 ++ List.replicate 8 0) := by
  rw [comp_zero_block_core]
  congr 1
  simp

theorem comp_zero_block0_core (rest : List Nat) (count v : Nat) (s2 : List Int) :
    comp_loop (count + 8) (([0, 128, 64, 32, 16, 8, 4, 2, 1] : List Nat) ++ rest)
      v 0 0 s2
      = comp_loop count rest (v + 9) 134480385 0
        (s2 ++ [0] ++ [0] ++ [0] ++ [0] ++ [0] ++ [0] ++ [0] ++ [0]) := by rfl

theorem comp_zero_block0 (rest : List Nat) (count v : Nat) (s2 : List Int) :
    comp_loop (count + 8) (([0, 128, 64, 32, 16, 8, 4, 2, 1] : List Nat) ++ rest)
      v 0 0 s2
      = comp_loop count rest (v + 9) 134480385 0 (s2 ++ List.replicate 8 0) := by
  rw [comp_zero_block0_core]
  congr 1
  simp

theorem comp_zeros (k : Nat) : ∀ (rest : List Nat) (count v : Nat) (s2 : List Int),
    comp_loop (8 * k + count)
        ((List.replicate k ([0, 128, 64, 32, 16, 8, 4, 2, 1] : List Nat)).flatten ++ rest)
        v 134480385 0 s2
      = comp_loop count rest (v + 9 * k) 134480385 0 (s2 ++ List.replicate (8 * k) 0) := by
  induction k with
  | zero =>
    intro rest count v s2
    simp only [Nat.mul_zero, Nat.zero_add, List.replicate_zero, List.flatten_nil,
      List.nil_append, Nat.add_zero, List.append_nil]
  | succ k ih =>
    intro rest count v s2
    rw [show 8 * (k + 1) + count = (8 * k + count) + 8 by ring]
    rw [List.replicate_succ, List.flatten_cons, List.append_assoc]
    rw [comp_zero_block]
    rw [ih]
    rw [show v + 9 + 9 * k = v + 9 * (k + 1) by ring]
    rw [List.append_assoc, ← List.replicate_add]
    rw [show 8 + 8 * k = 8 * (k + 1) by ring]

theorem decode_comp_zeroBody (t : List Nat) :
    decode_sig_compressed (zeroBody ++ t) = .ok (576, List.replicate 512 0) := by
  have hb : zeroBody = ([0, 128, 64, 32, 16, 8, 4, 2, 1] : List Nat) ++
      (List.replicate 63 ([0, 128, 64, 32, 16, 8, 4, 2, 1] : List Nat)).flatten := by
    rw [zeroBody, show (64 : Nat) = 63 + 1 by norm_num, List.replicate_succ,
      List.flatten_cons]
  rw [decode_sig_compressed, hb, List.append_assoc]
  rw [show (512 : Nat) = (8 * 63 + 0) + 8 by norm_num]
  rw [comp_zero_block0]
  rw [show (8 * 63 : Nat) = 8 * 63 + 0 by norm_num]
  rw [comp_zeros 63]
  rw [comp_loop_exit]
  norm_num [← List.replicate_add]


theorem poly_add_int_zero (l1 l2 : List Int) (h1 : ∀ x ∈ l1, x = 0)
    (h2 : ∀ x ∈ l2, x = 0) : ∀ x ∈ poly_add_int l1 l2, x = 0 := by
  induction l1 generalizing l2 with
  | nil => intro x hx; exact h2 x (by simpa [poly_add_int] using hx)
  | cons a l ih =>
    cases l2 with
    | nil => intro x hx; exact h1 x (by simpa [poly_add_int] using hx)
    | cons b l2' =>
      intro x hx
      simp only [poly_add_int, List.mem_cons] at hx
      rcases hx with rfl | hx
      · have ha := h1 a (by simp)
        have hb := h2 b (by simp)
        simp [ha, hb]
      · exact ih l2' (fun y hy => h1 y (List.mem_cons_of_mem _ hy))
          (fun y hy => h2 y (List.mem_cons_of_mem _ hy)) x hx

theorem poly_conv_zero (n : Nat) (b : List Int) :
    ∀ x ∈ poly_conv (List.replicate n 0) b, x = 0 := by
  induction n with
  | zero => simp [poly_conv]
  | succ n ih =>
    rw [List.replicate_succ]
    intro x hx
    simp only [poly_conv] at hx
    refine poly_add_int_zero _ _ ?_ ?_ x hx
    · intro y hy
      simp only [List.mem_map] at hy
      obtain ⟨z, _, rfl⟩ := hy
      ring
    · intro y hy
      rcases List.mem_cons.mp hy with rfl | hy
      · rfl
      · exact ih y hy

theorem getD_zero_of_all_zero {α : Type} (z : α) (l : List α)
    (h : ∀ x ∈ l, x = z) (i : Nat) : l.getD i z = z := by
  rcases Nat.lt_or_ge i l.length with hi | hi
  · rw [List.getD_eq_getElem l z hi]
    exact h _ (List.getElem_mem hi)
  · rw [List.getD_eq_default]
    exact hi

theorem mq_poly_mul_zero (b : List Nat) :
    mq_poly_mul (List.replicate 512 0) b = List.replicate 512 0 := by
  rw [mq_poly_mul]
  have hm : (List.replicate 512 (0:Nat)).map Int.ofNat
      = List.replicate 512 (0:Int) := by
    rw [List.map_replicate]; rfl
  rw [hm]
  have hc := poly_conv_zero 512 (b.map Int.ofNat)
  rw [List.eq_replicate_iff]
  refine ⟨by simp, ?_⟩
  intro x hx
  simp only [List.mem_map, List.mem_range] at hx
  obtain ⟨k, _, rfl⟩ := hx
  rw [getD_zero_of_all_zero _ _ hc, getD_zero_of_all_zero _ _ hc]
  rfl

theorem mq_poly_sub_zero :
    mq_poly_sub (List.replicate 512 0) (List.replicate 512 0)
      = List.replicate 512 0 := by
  rw [mq_poly_sub]
  have hz : ∀ x ∈ List.replicate 512 (0:Nat), x = 0 :=
    fun x hx => List.eq_of_mem_replicate hx
  rw [List.eq_replicate_iff]
  refine ⟨by simp, ?_⟩
  intro x hx
  simp only [List.mem_map, List.mem_range] at hx
  obtain ⟨k, _, rfl⟩ := hx
  rw [getD_zero_of_all_zero _ _ hz]
  rfl

theorem foldl_is_short_step_zeros (l : List Nat) (h : ∀ x ∈ l, x = 0) :
    l.foldl is_short_step (0, 0) = (0, 0) := by
  induction l with
  | nil => rfl
  | cons a l ih =>
    have ha := h a (by simp)
    subst ha
    rw [List.foldl_cons]
    have hstep : is_short_step (0, 0) 0 = (0, 0) := by
      simp [is_short_step, U32]
    rw [hstep]
    exact ih (fun x hx => h x (by simp [hx]))

theorem is_short_zeros :
    is_short (List.replicate 512 0) (List.replicate 512 0) = true := by
  rw [is_short]
  have hz : ∀ x ∈ ((List.replicate 512 (0:Int)).zip
      (List.replicate 512 (0:Int))).flatMap
        (fun p => [sqTerm p.1, sqTerm p.2]), x = 0 := by
    intro x hx
    simp only [List.mem_flatMap] at hx
    obtain ⟨p, hp, hx⟩ := hx
    have h1 := List.of_mem_zip hp
    have e1 : p.1 = 0 := List.eq_of_mem_replicate h1.1
    have e2 : p.2 = 0 := List.eq_of_mem_replicate h1.2
    simp only [List.mem_cons, List.mem_singleton] at hx
    rcases hx with rfl | rfl | h
    · simp [sqTerm, e1]
    · simp [sqTerm, e2]
    · cases h
  rw [foldl_is_short_step_zeros _ hz]
  norm_num [U32, L2_BOUND_512]

theorem verify_raw_zeros :
    verify_raw_512 (List.replicate 512 0) (List.replicate 512 0)
      (List.replicate 512 0) = true := by
  rw [verify_raw_512]
  have h1 : (List.replicate 512 (0:Int)).map (fun z =>
      (if z < 0 then ((z + (Q : Int)).emod (U32 : Int)).toNat else z.toNat)
        % 65536) = List.replicate 512 (0:Nat) := by
    rw [List.map_replicate]
    norm_num
  rw [h1, mq_poly_mul_zero, mq_poly_sub_zero]
  have h2 : (List.replicate 512 (0:Nat)).map (fun w =>
      if Int.ofNat w > 6144 then Int.ofNat w - (Q : Int) else Int.ofNat w)
      = List.replicate 512 (0:Int) := by
    rw [List.map_replicate]
    norm_num
  rw [h2]
  exact is_short_zeros



theorem verify_512_zero_comp (body : List Nat)
    (hdec : decode_sig_compressed body = .ok (576, List.replicate 512 0))
    (hz : ((body.drop 576).any fun x => x ≠ 0) = false)
    (hlen : 1 ≤ body.length) :
    verify_512 512 xof0 zeroPk (57 :: (List.replicate 40 0 ++ body))
      = some true := by
  have hplen : zeroPk.length = 897 := by simp [zeroPk]
  have hpget : zeroPk.getD 0 0 = 9 := rfl
  have hslen : (57 :: (List.replicate 40 0 ++ body)).length
      = 41 + body.length := by simp; omega
  have hsget : (57 :: (List.replicate 40 0 ++ body)).getD 0 0 = 57 := rfl
  have hdrop : (57 :: (List.replicate 40 0 ++ body)).drop 41 = body := by
    rw [List.drop_succ_cons]
    exact List.drop_left' (by simp)
  have h15 : (57 : Nat) &&& 15 = 9 := by decide
  have h240 : (57 : Nat) &&& 240 = 48 := by decide
  have hnl : ¬ (41 + body.length < 42) := by omega
  rw [verify_512]
  simp only [hplen, hpget, hslen, hsget, hdrop, h15, h240,
    decode_pubkey_zeroPk, hdec, hash_to_point_xof0, hz, hnl]
  norm_num [verify_raw_zeros]
  intro _ x hx
  have hx0 := List.any_eq_false.mp hz x hx
  simpa using hx0

theorem zeroBody_length : zeroBody.length = 576 := by
  rw [zeroBody]
  simp

theorem verify_sigTrail : verify_512 512 xof0 zeroPk sigTrail = some true := by
  rw [sigTrail]
  apply verify_512_zero_comp
  · exact decode_comp_zeroBody [0]
  · rw [List.drop_left' zeroBody_length]
    rfl
  · simp

theorem verify_sig701 : verify_512 512 xof0 zeroPk sig701 = some true := by
  rw [sig701]
  apply verify_512_zero_comp
  · exact decode_comp_zeroBody (List.replicate 84 0)
  · rw [List.drop_left' zeroBody_length]
    rw [List.any_eq_false]
    intro x hx
    have hx0 := List.eq_of_mem_replicate hx
    simp [hx0]
  · simp

theorem sig701_length : sig701.length = 701 := by
  rw [sig701]
  simp [zeroBody_length]

theorem sigTrail_facts : sigTrail.getD 0 0 = 57 ∧ (sigTrail.drop 41).length = 577 := by
  constructor
  · rfl
  · rw [sigTrail, List.drop_succ_cons, List.drop_left' (by simp)]
    simp [zeroBody_length]

theorem ctBody800_length : ctBody800.length = 768 := by
  rw [ctBody800]
  simp

theorem decode_ct_body800 :
    decode_sig_ct ctBody800 = .ok (768, (-2048 : Int) :: List.replicate 511 0) := by
  have hsplit : ctBody800 = 128 :: 0 :: 0 :: 0 :: 0 :: 0 :: List.replicate 762 0 := by
    rw [ctBody800, show (767 : Nat) = 5 + 762 by norm_num, List.replicate_add]
    rfl
  have hstep : ∀ rest : List Nat,
      ct_loop (128 :: 0 :: 0 :: 0 :: 0 :: 0 :: rest) 0 0 0 []
        = ct_loop rest 0 0 4 (([] ++ [-2048] ++ [0] ++ [0]) ++ [0]) :=
    fun rest => rfl
  rw [decode_sig_ct, ctBody800_length]
  rw [if_neg (by omega)]
  rw [hsplit, hstep]
  rw [show (762 : Nat) = 3 * 254 by norm_num,
    show List.replicate (3 * 254) (0 : Nat)
      = List.replicate (3 * 254) 0 ++ [] by simp]
  rw [ct_zeros 254 [] 4 _ (by omega)]
  rw [ct_loop_exit _ _ _ _ (by omega)]
  norm_num
  rw [show (511 : Nat) = 3 + 508 by norm_num, List.replicate_add]
  rfl


/-! Panic-freedom of the decoders: no loop ever reaches an
out-of-bounds read or an overflowing shift. -/

theorem pk_loop_no_crash :
    ∀ (rem : List Nat) (acc acc_len u : Nat) (hacc : List Nat),
      acc_len ≤ 13 → 8 * rem.length + acc_len = 14 * (512 - u) →
      pk_loop rem acc acc_len u hacc ≠ .crash := by
  intro rem
  induction rem with
  | nil =>
    intro acc acc_len u hacc h13 hbits
    simp only [List.length_nil] at hbits
    unfold pk_loop
    split
    · split
      · omega
      · split <;> simp
    · omega
  | cons b rest ih =>
    intro acc acc_len u hacc h13 hbits
    simp only [List.length_cons] at hbits
    unfold pk_loop
    split
    · split
      · omega
      · split <;> simp
    · dsimp only
      split
      · split
        · omega
        · split
          · simp
          · apply ih
            · omega
            · omega
      · apply ih
        · omega
        · omega

theorem decode_pubkey_no_crash (pubkey : List Nat) :
    decode_pubkey pubkey ≠ .crash := by
  rw [decode_pubkey]
  split
  · simp
  · split
    · simp
    · rename_i hlen _
      apply pk_loop_no_crash
      · omega
      · have h897 : pubkey.length = 897 := by omega
        simp [h897]


theorem comp_refill_ne_crash (rem : List Nat) (v acc acc_len : Nat) :
    comp_refill rem v acc acc_len ≠ .crash := by
  unfold comp_refill
  split
  · split <;> simp
  · simp

theorem comp_refill_ok_len (rem : List Nat) (v acc acc_len : Nat)
    (h8 : acc_len ≤ 8) :
    ∀ rem' v' acc' len1,
      comp_refill rem v acc acc_len = .ok (rem', v', acc', len1) →
      len1 ≤ 8 ∧ 1 ≤ len1 := by
  intro rem' v' acc' len1 h
  unfold comp_refill at h
  split at h
  · split at h
    · cases h
    · simp only [DRes.ok.injEq, Prod.mk.injEq] at h
      obtain ⟨-, -, -, rfl⟩ := h
      omega
  · rename_i hz
    simp only [DRes.ok.injEq, Prod.mk.injEq] at h
    obtain ⟨-, -, -, rfl⟩ := h
    omega

theorem comp_unary_cases :
    ∀ (fuel : Nat) (rem : List Nat) (v acc acc_len m : Nat),
      m ≤ 2047 → 2176 ≤ m + 128 * fuel → acc_len ≤ 8 →
      comp_unary fuel rem v acc acc_len m = .fail ∨
      ∃ rem' v' acc' len' m',
        comp_unary fuel rem v acc acc_len m = .ok (rem', v', acc', len', m') ∧
        len' ≤ 7 ∧ m' ≤ 2047 := by
  intro fuel
  induction fuel with
  | zero => intro rem v acc acc_len m hm hf h8; omega
  | succ fuel ih =>
    intro rem v acc acc_len m hm hf h8
    unfold comp_unary
    rcases hr : comp_refill rem v acc acc_len with - | - | r
    · exact absurd hr (comp_refill_ne_crash rem v acc acc_len)
    · left; rfl
    · obtain ⟨rem', v', acc', len1⟩ := r
      have hlen := comp_refill_ok_len rem v acc acc_len h8 rem' v' acc' len1 hr
      dsimp only
      rw [if_neg (by omega : ¬ len1 - 1 ≥ 32)]
      split
      · right
        exact ⟨rem', v', acc', len1 - 1, m, rfl, by omega, hm⟩
      · split
        · left; rfl
        · rename_i hbit hm'
          exact ih rem' v' acc' (len1 - 1) (m + 128) (by omega) (by omega)
            (by omega)

theorem comp_loop_no_crash :
    ∀ (count : Nat) (rem : List Nat) (v acc acc_len : Nat) (s2 : List Int),
      acc_len ≤ 7 →
      comp_loop count rem v acc acc_len s2 ≠ .crash := by
  intro count
  induction count with
  | zero =>
    intro rem v acc acc_len s2 h7
    unfold comp_loop
    rw [if_neg (by omega : ¬ acc_len ≥ 32)]
    split <;> simp
  | succ count ih =>
    intro rem v acc acc_len s2 h7
    unfold comp_loop
    match rem with
    | [] => simp
    | byte :: rest =>
      dsimp only
      rw [if_neg (by omega : ¬ acc_len ≥ 32)]
      have hand : (((acc <<< 8) % U32) ||| byte) >>> acc_len &&& 127 ≤ 2047 := by
        have := Nat.and_le_right
          (n := (((acc <<< 8) % U32) ||| byte) >>> acc_len) (m := 127)
        omega
      rcases comp_unary_cases 17 rest (v + 1) (((acc <<< 8) % U32) ||| byte)
          acc_len ((((acc <<< 8) % U32) ||| byte) >>> acc_len &&& 127)
          hand (by omega) (by omega) with hu | ⟨rem', v', acc', len', m', hu, hl, hm⟩
      · rw [hu]
        simp
      · rw [hu]
        dsimp only
        split
        · simp
        · exact ih rem' v' acc' len' (s2 ++ [_]) (by omega)

theorem decode_sig_compressed_no_crash (data : List Nat) :
    decode_sig_compressed data ≠ .crash := by
  rw [decode_sig_compressed]
  exact comp_loop_no_crash 512 data 0 0 0 [] (by omega)


theorem ct_inner_ne_crash :
    ∀ (fuel acc acc_len u : Nat) (s2 : List Int),
      acc_len ≤ 11 + 12 * fuel → acc_len ≤ 19 →
      ct_inner acc fuel acc_len u s2 ≠ .crash := by
  intro fuel
  induction fuel with
  | zero =>
    intro acc acc_len u s2 hf h19
    unfold ct_inner
    rw [if_neg (by omega : ¬ (acc_len ≥ 12 ∧ u < 512))]
    simp
  | succ fuel ih =>
    intro acc acc_len u s2 hf h19
    unfold ct_inner
    split
    · rw [if_neg (by omega : ¬ acc_len - 12 ≥ 32)]
      dsimp only
      split_ifs <;>
        first
          | exact ih acc (acc_len - 12) (u + 1) _ (by omega) (by omega)
          | exact fun h => DRes.noConfusion h
    · simp

theorem ct_inner_ok_inv :
    ∀ (fuel acc acc_len u : Nat) (s2 : List Int) (len' u' : Nat)
      (s2' : List Int),
      acc_len ≤ 11 + 12 * fuel → acc_len ≤ 19 →
      ct_inner acc fuel acc_len u s2 = .ok (len', u', s2') →
      u ≤ u' ∧ len' + 12 * (u' - u) = acc_len ∧ (len' ≤ 11 ∨ 512 ≤ u') := by
  intro fuel
  induction fuel with
  | zero =>
    intro acc acc_len u s2 len' u' s2' hf h19 h
    unfold ct_inner at h
    rw [if_neg (by omega : ¬ (acc_len ≥ 12 ∧ u < 512))] at h
    simp only [DRes.ok.injEq, Prod.mk.injEq] at h
    obtain ⟨rfl, rfl, -⟩ := h
    omega
  | succ fuel ih =>
    intro acc acc_len u s2 len' u' s2' hf h19 h
    unfold ct_inner at h
    split at h
    · rename_i hcond
      rw [if_neg (by omega : ¬ acc_len - 12 ≥ 32)] at h
      dsimp only at h
      split_ifs at h <;>
        first
          | cases h
          | (have hres := ih acc (acc_len - 12) (u + 1) _ len' u' s2'
              (by omega) (by omega) h
             omega)
    · rename_i hcond
      simp only [DRes.ok.injEq, Prod.mk.injEq] at h
      obtain ⟨rfl, rfl, -⟩ := h
      omega


theorem ct_loop_ext :
    ∀ (rem rest rest' : List Nat) (acc acc_len u : Nat) (s2 : List Int),
      acc_len ≤ 19 → (acc_len ≤ 11 ∨ 512 ≤ u) →
      12 * (512 - u) ≤ 8 * rem.length + acc_len →
      ct_loop (rem ++ rest) acc acc_len u s2
        = ct_loop (rem ++ rest') acc acc_len u s2 := by
  intro rem
  induction rem with
  | nil =>
    intro rest rest' acc acc_len u s2 h19 h11 hbits
    have hu : 512 ≤ u := by
      rcases h11 with h | h
      · simp only [List.length_nil] at hbits; omega
      · exact h
    simp only [List.nil_append]
    rw [ct_loop.eq_def, ct_loop.eq_def]
    dsimp only
    rw [if_pos (by omega : u ≥ 512), if_pos (by omega : u ≥ 512)]
  | cons b rest0 ih =>
    intro rest rest' acc acc_len u s2 h19 h11 hbits
    rcases Nat.lt_or_ge u 512 with hu | hu
    · simp only [List.cons_append]
      unfold ct_loop
      rw [if_neg (by omega : ¬ u ≥ 512), if_neg (by omega : ¬ u ≥ 512)]
      dsimp only
      have h11' : acc_len ≤ 11 := by
        rcases h11 with h | h
        · exact h
        · omega
      rcases hi : ct_inner (((acc <<< 8) % U32) ||| b) (acc_len + 8)
          (acc_len + 8) u s2 with - | - | r
      · exact absurd hi (ct_inner_ne_crash (acc_len + 8) _ (acc_len + 8) u s2
          (by omega) (by omega))
      · rfl
      · obtain ⟨len2, u2, s22⟩ := r
        have hinv := ct_inner_ok_inv (acc_len + 8) _ (acc_len + 8) u s2
          len2 u2 s22 (by omega) (by omega) hi
        apply ih
        · omega
        · omega
        · simp only [List.length_cons] at hbits ⊢
          omega
    · simp only [List.cons_append]
      unfold ct_loop
      rw [if_pos (by omega : u ≥ 512), if_pos (by omega : u ≥ 512)]

theorem ct_loop_no_crash :
    ∀ (rem : List Nat) (acc acc_len u : Nat) (s2 : List Int),
      acc_len ≤ 19 → (acc_len ≤ 11 ∨ 512 ≤ u) →
      12 * (512 - u) ≤ 8 * rem.length + acc_len →
      ct_loop rem acc acc_len u s2 ≠ .crash := by
  intro rem
  induction rem with
  | nil =>
    intro acc acc_len u s2 h19 h11 hbits
    have hu : 512 ≤ u := by
      rcases h11 with h | h
      · simp only [List.length_nil] at hbits; omega
      · exact h
    rw [ct_loop.eq_def]
    dsimp only
    rw [if_pos (by omega : u ≥ 512), if_neg (by omega : ¬ acc_len ≥ 32)]
    split <;> simp
  | cons b rest0 ih =>
    intro acc acc_len u s2 h19 h11 hbits
    rcases Nat.lt_or_ge u 512 with hu | hu
    · unfold ct_loop
      rw [if_neg (by omega : ¬ u ≥ 512)]
      dsimp only
      have h11' : acc_len ≤ 11 := by
        rcases h11 with h | h
        · exact h
        · omega
      rcases hi : ct_inner (((acc <<< 8) % U32) ||| b) (acc_len + 8)
          (acc_len + 8) u s2 with - | - | r
      · exact absurd hi (ct_inner_ne_crash (acc_len + 8) _ (acc_len + 8) u s2
          (by omega) (by omega))
      · simp
      · obtain ⟨len2, u2, s22⟩ := r
        have hinv := ct_inner_ok_inv (acc_len + 8) _ (acc_len + 8) u s2
          len2 u2 s22 (by omega) (by omega) hi
        apply ih
        · omega
        · omega
        · simp only [List.length_cons] at hbits ⊢
          omega
    · unfold ct_loop
      rw [if_pos (by omega : u ≥ 512), if_neg (by omega : ¬ acc_len ≥ 32)]
      split <;> simp

theorem decode_sig_ct_no_crash (data : List Nat) :
    decode_sig_ct data ≠ .crash := by
  rw [decode_sig_ct]
  split
  · simp
  · rename_i hlen
    have h := ct_loop_no_crash data 0 0 0 [] (by omega) (by omega)
      (by omega)
    rcases hc : ct_loop data 0 0 0 [] with - | - | s2 <;> simp [hc] at h ⊢

theorem decode_sig_ct_take (data data' : List Nat)
    (h : data.take 768 = data'.take 768)
    (hl : 768 ≤ data.length) (hl' : 768 ≤ data'.length) :
    decode_sig_ct data = decode_sig_ct data' := by
  rw [decode_sig_ct, decode_sig_ct]
  rw [if_neg (by omega), if_neg (by omega)]
  have hd : data = data.take 768 ++ data.drop 768 := by
    rw [List.take_append_drop]
  have hd' : data' = data'.take 768 ++ data'.drop 768 := by
    rw [List.take_append_drop]
  rw [hd, hd', ← h]
  rw [ct_loop_ext (data.take 768) (data.drop 768) (data'.drop 768) 0 0 0 []
    (by omega) (by omega)
    (by rw [List.length_take]; omega)]


end StellarPQ
namespace StellarPQ

/-- C5: `verify_512` is total up to the external SHAKE256 stream: for
every public key, signature and XOF stream, as soon as the rejection
sampling of `hash_to_point` succeeds within the attempt budget, the
verifier returns a boolean.  `none` (a panic: out-of-bounds index or
overflowing shift, or an exhausted sampling budget) is never reached:
every slice index and shift amount in the decoders stays in bounds. -/
theorem verify_512_total (fuel : Nat) (xof : Nat → Nat)
    (pubkey signature : List Nat)
    (hhtp : (hash_to_point xof fuel).isSome = true) :
    (verify_512 fuel xof pubkey signature).isSome = true := by
  rw [verify_512]
  split
  · rfl
  split
  · rfl
  split
  · rfl
  dsimp only
  split
  · rfl
  split
  · rfl
  rcases hp : decode_pubkey pubkey with - | - | h
  · exact absurd hp (decode_pubkey_no_crash pubkey)
  · rfl
  · dsimp only
    rcases hs : (if signature.getD 0 0 &&& 240 = 80
        then decode_sig_ct (signature.drop 41)
        else decode_sig_compressed (signature.drop 41)) with - | - | r
    · split at hs
      · exact absurd hs (decode_sig_ct_no_crash _)
      · exact absurd hs (decode_sig_compressed_no_crash _)
    · rfl
    · obtain ⟨dl, s2⟩ := r
      dsimp only
      split
      · rfl
      · rcases hh : hash_to_point xof fuel with - | c0
        · rw [hh] at hhtp
          simp at hhtp
        · rfl

/-- Witness for C5 at a concrete input: with the all-zero XOF stream,
empty public key and empty signature, the sampling succeeds and the
verifier returns a boolean. -/
theorem verify_512_total_witness :
    (verify_512 512 xof0 [] []).isSome = true :=
  verify_512_total 512 xof0 [] []
    (by rw [hash_to_point_xof0]; rfl)

end StellarPQ
namespace StellarPQ

theorem getD_mem_drop (l : List Nat) (v i : Nat) (hv : v ≤ i)
    (hi : i < l.length) : l.getD i 0 ∈ l.drop v := by
  have h1 : i - v < (l.drop v).length := by
    simp [List.length_drop]; omega
  have h2 : (l.drop v).getD (i - v) 0 = l.getD i 0 := by
    rw [List.getD_eq_getElem _ _ h1, List.getD_eq_getElem _ _ hi]
    rw [List.getElem_drop]
    congr 1
    omega
  rw [← h2, List.getD_eq_getElem _ _ h1]
  exact List.getElem_mem h1

/-- C2: the constant-time decoder does not reject the 12-bit sign
pattern 0x800.  On the 768-byte body whose first field is 0x800 it
succeeds, consumes 768 bytes and stores the sign-extended coefficient
-2048; the source's rejection test compares the sign-extended value
(0xFFFFF800) against `(0u32.wrapping_sub(mask2) & mask1) = 0x800` and
can never hold, as the second conjunct records. -/
theorem ct_decoder_accepts_minus2048 :
    decode_sig_ct ctBody800 = .ok (768, (-2048 : Int) :: List.replicate 511 0)
      ∧ ((U32 - 2048) % U32) &&& 4095 = 2048 :=
  ⟨decode_ct_body800, by decide⟩

/-- C3 counterexample: `sigTrail` has the plain-Compressed header 0x39,
its body is one byte longer than what the compressed decoder consumes
(576 of 577 bytes), the trailing byte is zero, and `verify_512`
nevertheless accepts, contradicting the claim that the Compressed
variant requires `consumed = body.len()`. -/
theorem compressed_trailing_zero_accepted :
    sigTrail.getD 0 0 &&& 240 = 48 ∧
    decode_sig_compressed (sigTrail.drop 41) = .ok (576, List.replicate 512 0) ∧
    576 < (sigTrail.drop 41).length ∧
    verify_512 512 xof0 zeroPk sigTrail = some true := by
  have hdrop : sigTrail.drop 41 = zeroBody ++ [0] := by
    rw [sigTrail, List.drop_succ_cons]
    exact List.drop_left' (by simp)
  refine ⟨by decide, ?_, ?_, verify_sigTrail⟩
  · rw [hdrop]
    exact decode_comp_zeroBody [0]
  · rw [hdrop]
    simp [zeroBody_length]

/-- C3 as amended: for a signature whose header selects a non-CT
format, `verify_512` returns false whenever some body byte after the
consumed prefix is nonzero; only this padded-style check is applied to
the plain Compressed variant, so trailing zero bytes are tolerated. -/
theorem compressed_nonzero_trailing_rejected (fuel : Nat) (xof : Nat → Nat)
    (pubkey sig : List Nat) (v : Nat) (s2 : List Int) (i : Nat)
    (hhdr : sig.getD 0 0 &&& 240 = 48)
    (hdec : decode_sig_compressed (sig.drop 41) = .ok (v, s2))
    (hv : v ≤ i) (hi : i < (sig.drop 41).length)
    (hnz : (sig.drop 41).getD i 0 ≠ 0) :
    verify_512 fuel xof pubkey sig = some false := by
  rw [verify_512]
  split
  · rfl
  split
  · rfl
  split
  · rfl
  dsimp only
  split
  · rfl
  split
  · rfl
  rcases hp : decode_pubkey pubkey with - | - | h
  · exact absurd hp (decode_pubkey_no_crash pubkey)
  · rfl
  · dsimp only
    rw [if_neg (by rw [hhdr]; norm_num : ¬ (sig.getD 0 0 &&& 240 = 80))]
    rw [hdec]
    dsimp only
    rw [if_pos ?hcond]
    case hcond =>
      refine ⟨by rw [hhdr]; norm_num, by omega, ?_⟩
      rw [List.any_eq_true]
      exact ⟨(sig.drop 41).getD i 0, getD_mem_drop _ v i hv hi,
        by simpa using hnz⟩

/-- Compressed-format signature whose trailing body byte is 1. -/
def sigTrailBad : List Nat := 57 :: (List.replicate 40 0 ++ (zeroBody ++ [1]))

/-- Witness for the amended C3 at a concrete input: one nonzero
trailing byte after the consumed 576-byte body forces rejection. -/
theorem compressed_nonzero_trailing_rejected_witness :
    verify_512 512 xof0 zeroPk sigTrailBad = some false := by
  have hdrop : sigTrailBad.drop 41 = zeroBody ++ [1] := by
    rw [sigTrailBad, List.drop_succ_cons]
    exact List.drop_left' (by simp)
  apply compressed_nonzero_trailing_rejected 512 xof0 zeroPk sigTrailBad 576
    (List.replicate 512 0) 576 (by decide)
  · rw [hdrop]
    exact decode_comp_zeroBody [1]
  · omega
  · rw [hdrop]
    simp [zeroBody_length]
  · rw [hdrop, ← zeroBody_length]
    rw [List.getD_append_right] <;> simp

/-- C4 counterexample: `sig701` has total length 701, outside the
claimed window 42..700, yet `verify_512` returns true: the upper bound
is not checked by the library function. -/
theorem verify_512_accepts_length_701 :
    sig701.length = 701 ∧ verify_512 512 xof0 zeroPk sig701 = some true :=
  ⟨sig701_length, verify_sig701⟩

/-- C4 as amended: `verify_512` itself rejects only signatures shorter
than 42 bytes; the full window 42..700 is enforced by the contract
entry point `FalconVerifierContract::verify`, which returns false on
both boundary violations 41 and 701. -/
theorem length_window_enforcement (fuel : Nat) (xof : Nat → Nat)
    (pk sig : List Nat) :
    (sig.length < 42 → verify_512 fuel xof pk sig = some false) ∧
    ((sig.length < 42 ∨ 700 < sig.length) →
      contract_verify fuel xof pk sig = some false) := by
  constructor
  · intro h
    rw [verify_512]
    split
    · rfl
    split
    · rfl
    · rfl
  · intro h
    rw [contract_verify]
    split
    · rfl
    · rfl

/-- Witness for the amended C4: length 41 is rejected by `verify_512`,
length 701 by the contract entry point. -/
theorem length_window_enforcement_witness :
    verify_512 512 xof0 zeroPk (List.replicate 41 0) = some false ∧
    contract_verify 512 xof0 zeroPk (List.replicate 701 0) = some false :=
  ⟨(length_window_enforcement 512 xof0 zeroPk (List.replicate 41 0)).1
      (by simp),
    (length_window_enforcement 512 xof0 zeroPk (List.replicate 701 0)).2
      (by simp)⟩

/-- C9: the smart-account authorization callback maps a wrong-length
signature to `InvalidSignatureSize`, and otherwise returns `Ok` exactly
when `verify_512` accepts and `VerificationFailed` exactly when it
rejects, for any stored 897-byte public key. -/
theorem check_auth_spec (fuel : Nat) (xof : Nat → Nat)
    (pk sig : List Nat) (hpk : pk.length = 897) :
    (check_auth fuel xof pk sig
        = some (Except.error AccError.invalidSignatureSize) ↔
      (sig.length < 42 ∨ 700 < sig.length)) ∧
    (42 ≤ sig.length → sig.length ≤ 700 →
      ((check_auth fuel xof pk sig = some (Except.ok ()) ↔
          verify_512 fuel xof pk sig = some true) ∧
       (check_auth fuel xof pk sig
            = some (Except.error AccError.verificationFailed) ↔
          verify_512 fuel xof pk sig = some false))) := by
  have htake : pk.take 897 = pk := by
    rw [← hpk]; exact pk.take_length
  by_cases hw : sig.length < 42 ∨ sig.length > 700
  · constructor
    · rw [check_auth, if_pos hw]
      simp only [Option.some.injEq, true_iff]
      exact hw
    · intro h1 h2
      exact absurd hw (by omega)
  · have hca : check_auth fuel xof pk sig =
        match verify_512 fuel xof pk sig with
        | none => none
        | some true => some (Except.ok ())
        | some false => some (Except.error AccError.verificationFailed) := by
      rw [check_auth, if_neg hw, if_neg (by omega), htake]
    constructor
    · rw [hca]
      rcases verify_512 fuel xof pk sig with - | b
      · constructor
        · intro h
          exact Option.noConfusion h
        · intro h
          exact absurd h hw
      · rcases b <;> simp <;> omega
    · intro h1 h2
      rw [hca]
      rcases verify_512 fuel xof pk sig with - | b
      · simp
      · rcases b <;> simp

/-- Witness for C9 at concrete inputs: a 41-byte signature yields
`InvalidSignatureSize`, and for the in-window `sigTrail` the callback
agrees with `verify_512` (which accepts it). -/
theorem check_auth_spec_witness :
    check_auth 512 xof0 zeroPk (List.replicate 41 0)
        = some (Except.error AccError.invalidSignatureSize) ∧
    (check_auth 512 xof0 zeroPk sigTrail = some (Except.ok ()) ↔
      verify_512 512 xof0 zeroPk sigTrail = some true) :=
  ⟨(check_auth_spec 512 xof0 zeroPk (List.replicate 41 0)
        (by simp [zeroPk])).1.mpr (by simp),
    ((check_auth_spec 512 xof0 zeroPk sigTrail (by simp [zeroPk])).2
        (by simp [sigTrail, zeroBody]) (by simp [sigTrail, zeroBody])).1⟩

/-- C10: `verify_512` never inspects bytes of a CT-format signature past
offset 809 (header + 40-byte nonce + 768-byte CT body): two signatures
with the CT header that agree on their first 809 bytes verify
identically, whatever follows. -/
theorem verify_512_ct_ignores_trailing (fuel : Nat) (xof : Nat → Nat)
    (pk : List Nat) (sig sig₂ : List Nat)
    (htake : sig.take 809 = sig₂.take 809)
    (hl : 809 ≤ sig.length) (hl₂ : 809 ≤ sig₂.length)
    (hhdr : sig.getD 0 0 = 89) :
    verify_512 fuel xof pk sig = verify_512 fuel xof pk sig₂ := by
  have h0 : sig[0]? = sig₂[0]? := by
    have h := congrArg (fun l => l[0]?) htake
    simpa [List.getElem?_take] using h
  have hhdr₂ : sig₂.getD 0 0 = 89 := by
    rw [List.getD_eq_getElem?_getD, ← h0, ← List.getD_eq_getElem?_getD]
    exact hhdr
  have hdata : (sig.drop 41).take 768 = (sig₂.drop 41).take 768 := by
    have h := congrArg (List.drop 41) htake
    simpa [List.drop_take] using h
  have hnl : (sig.length < 42) = False := by simp; omega
  have hnl₂ : (sig₂.length < 42) = False := by simp; omega
  have h15 : (89 : Nat) &&& 15 = 9 := by decide
  have h240 : (89 : Nat) &&& 240 = 80 := by decide
  rw [verify_512, verify_512]
  simp only [hhdr, hhdr₂, hnl, hnl₂, h15, h240, reduceIte, ne_eq,
    not_true, not_false_iff, false_and, if_false, Nat.reduceEqDiff]
  rw [decode_sig_ct_take (sig.drop 41) (sig₂.drop 41) hdata
    (by rw [List.length_drop]; omega) (by rw [List.length_drop]; omega)]

/-- Witness for C10: appending a nonzero byte past offset 809 to the
all-zero CT signature `sigCT` does not change the verdict. -/
theorem verify_512_ct_ignores_trailing_witness :
    verify_512 512 xof0 zeroPk sigCT = verify_512 512 xof0 zeroPk sigCTx :=
  verify_512_ct_ignores_trailing 512 xof0 zeroPk sigCT sigCTx
    (by rw [sigCTx, List.take_left' (by simp [sigCT]),
      List.take_of_length_le (by simp [sigCT])])
    (by simp [sigCT]) (by simp [sigCTx, sigCT]) rfl

/-! ### The number-theoretic transform layer (spec-modelled)

The verifier crate declares an `ntt` module that is absent from `src/`;
the definitions below follow the specification of that layer. -/

instance : Fact (Nat.Prime 12289) := ⟨by norm_num⟩

/-- Modelled from the spec: the coefficient field Z_q of the NTT layer
(`ntt.rs` is declared by the verifier crate but absent from `src/`), with
q = 12289 = 1 + 3·2^12 prime. -/
abbrev Zq : Type := ZMod 12289

/-- Modelled from the spec: ψ = 49, the canonical primitive 1024th root of
unity of Z_q used by the negacyclic NTT (ψ^512 = −1). -/
def psi : Zq := 49

/-- Modelled from the spec: ψ⁻¹ = 1254 in Z_q. -/
def psiInv : Zq := 1254

/-- Modelled from the spec: 512⁻¹ = 12265 in Z_q, the scaling factor of the
inverse transform. -/
def nInv : Zq := 12265

/-- Modelled from the spec: forward negacyclic NTT of size 512,
b[j] = Σ_i a[i]·ψ^((2j+1)·i). -/
def ntt_forward (a : Fin 512 → Zq) : Fin 512 → Zq :=
  fun j => ∑ i : Fin 512, a i * psi ^ ((2 * (j : ℕ) + 1) * (i : ℕ))

/-- Modelled from the spec: inverse negacyclic NTT of size 512,
a[i] = n⁻¹ · Σ_j b[j]·ψ^(−(2j+1)·i). -/
def ntt_inverse (b : Fin 512 → Zq) : Fin 512 → Zq :=
  fun i => nInv * ∑ j : Fin 512, b j * psiInv ^ ((2 * (j : ℕ) + 1) * (i : ℕ))

theorem psi_mul_psiInv : psi * psiInv = 1 := by decide

theorem psi_pow_512 : psi ^ 512 = -1 := by decide

theorem psiInv_pow_512 : psiInv ^ 512 = -1 := by decide

theorem psi_pow_1024 : psi ^ 2 ^ 10 = 1 := by
  have h : (2 : ℕ) ^ 10 = 512 * 2 := by norm_num
  rw [h, pow_mul, psi_pow_512, neg_one_sq]

theorem psi_pow_512_ne_one : ¬ psi ^ 2 ^ 9 = 1 := by
  have h : (2 : ℕ) ^ 9 = 512 := by norm_num
  rw [h, psi_pow_512]
  decide

theorem psiInv_pow_1024 : psiInv ^ 1024 = 1 := by
  have h : (1024 : ℕ) = 512 * 2 := by norm_num
  rw [h, pow_mul, psiInv_pow_512, neg_one_sq]

theorem nInv_mul_512 : nInv * 512 = 1 := by decide

theorem orderOf_psi : orderOf psi = 1024 := by
  have h := orderOf_eq_prime_pow (x := psi) (p := 2) (n := 9)
    psi_pow_512_ne_one psi_pow_1024
  norm_num at h
  exact h

theorem pow_psi_mul_pow_psiInv (m : ℕ) : psi ^ m * psiInv ^ m = 1 := by
  rw [← mul_pow, psi_mul_psiInv, one_pow]

theorem psi_pow_ne_zero (m : ℕ) : psi ^ m ≠ 0 := by
  intro h0
  have h1 := pow_psi_mul_pow_psiInv m
  rw [h0, zero_mul] at h1
  exact one_ne_zero h1.symm

theorem psi_pow_eq_one_bound (m : ℕ) (h0 : 0 < m) (hm : m < 1024) :
    psi ^ m ≠ 1 := by
  intro h
  have hdvd := orderOf_dvd_of_pow_eq_one h
  rw [orderOf_psi] at hdvd
  exact absurd (Nat.le_of_dvd h0 hdvd) (by omega)

theorem geom_sum_zero_of_root (x : Zq) (hx : x ≠ 1) (h : x ^ 512 = 1) :
    ∑ j : Fin 512, x ^ (j : ℕ) = 0 := by
  have hr : ∑ j : Fin 512, x ^ (j : ℕ)
      = ∑ j in Finset.range 512, x ^ j :=
    Fin.sum_univ_eq_sum_range (fun m => x ^ m) 512
  have hgs := geom_sum_mul x 512
  rw [h, sub_self] at hgs
  rcases mul_eq_zero.mp hgs with hz | hz
  · rw [hr, hz]
  · exact absurd (sub_eq_zero.mp hz) hx

theorem twiddle_ne_one (k i : Fin 512) (hne : k ≠ i) :
    psi ^ (2 * (k : ℕ)) * psiInv ^ (2 * (i : ℕ)) ≠ 1 := by
  intro h
  have hkk : psi ^ (2 * (k : ℕ)) = psi ^ (2 * (i : ℕ)) := by
    have h2 := congrArg (fun z => z * psi ^ (2 * (i : ℕ))) h
    simp only [one_mul] at h2
    rw [mul_assoc] at h2
    rw [mul_comm (psiInv ^ (2 * (i : ℕ)))] at h2
    rw [pow_psi_mul_pow_psiInv, mul_one] at h2
    exact h2
  have hk : (k : ℕ) < 512 := k.isLt
  have hi : (i : ℕ) < 512 := i.isLt
  have hki : (k : ℕ) ≠ (i : ℕ) := fun hc => hne (Fin.ext hc)
  rcases Nat.lt_or_ge (i : ℕ) (k : ℕ) with hlt | hge
  · have hsplit : 2 * (k : ℕ) = 2 * (i : ℕ) + 2 * ((k : ℕ) - (i : ℕ)) := by
      omega
    rw [hsplit, pow_add] at hkk
    have hone : psi ^ (2 * ((k : ℕ) - (i : ℕ))) = 1 :=
      mul_left_cancel₀ (psi_pow_ne_zero _) (hkk.trans (mul_one _).symm)
    exact psi_pow_eq_one_bound _ (by omega) (by omega) hone
  · have hlt' : (k : ℕ) < (i : ℕ) := by omega
    have hsplit : 2 * (i : ℕ) = 2 * (k : ℕ) + 2 * ((i : ℕ) - (k : ℕ)) := by
      omega
    rw [hsplit, pow_add] at hkk
    have hone : psi ^ (2 * ((i : ℕ) - (k : ℕ))) = 1 :=
      mul_left_cancel₀ (psi_pow_ne_zero _) (hkk.symm.trans (mul_one _).symm)
    exact psi_pow_eq_one_bound _ (by omega) (by omega) hone

theorem twiddle_pow_512 (k i : Fin 512) :
    (psi ^ (2 * (k : ℕ)) * psiInv ^ (2 * (i : ℕ))) ^ 512 = 1 := by
  rw [mul_pow, ← pow_mul, ← pow_mul]
  have ek : 2 * (k : ℕ) * 512 = 1024 * (k : ℕ) := by ring
  have ei : 2 * (i : ℕ) * 512 = 1024 * (i : ℕ) := by ring
  rw [ek, ei, pow_mul, pow_mul]
  have h1 : psi ^ 1024 = 1 := psi_pow_1024
  rw [h1, psiInv_pow_1024, one_pow, one_pow, one_mul]

/-- C8: the forward and inverse negacyclic NTTs of size 512 over Z_12289,
with the canonical root ψ = 49, compose to the identity on every
coefficient vector. -/
theorem ntt_roundtrip (a : Fin 512 → Zq) :
    ntt_inverse (ntt_forward a) = a := by
  funext i
  rw [ntt_inverse]
  have hsum : ∀ j : Fin 512,
      ntt_forward a j * psiInv ^ ((2 * (j : ℕ) + 1) * (i : ℕ))
        = ∑ k : Fin 512, a k * (psi ^ (k : ℕ) * psiInv ^ (i : ℕ))
            * (psi ^ (2 * (k : ℕ)) * psiInv ^ (2 * (i : ℕ))) ^ (j : ℕ) := by
    intro j
    rw [ntt_forward, Finset.sum_mul]
    refine Finset.sum_congr rfl fun k _ => ?_
    have e1 : (2 * (j : ℕ) + 1) * (k : ℕ)
        = (k : ℕ) + 2 * (k : ℕ) * (j : ℕ) := by ring
    have e2 : (2 * (j : ℕ) + 1) * (i : ℕ)
        = (i : ℕ) + 2 * (i : ℕ) * (j : ℕ) := by ring
    rw [e1, e2, pow_add, pow_add, pow_mul, pow_mul, mul_pow]
    ring
  rw [Finset.sum_congr rfl fun j _ => hsum j, Finset.sum_comm]
  have hterm : ∀ k : Fin 512,
      ∑ j : Fin 512, a k * (psi ^ (k : ℕ) * psiInv ^ (i : ℕ))
            * (psi ^ (2 * (k : ℕ)) * psiInv ^ (2 * (i : ℕ))) ^ (j : ℕ)
        = a k * (psi ^ (k : ℕ) * psiInv ^ (i : ℕ))
            * ∑ j : Fin 512,
              (psi ^ (2 * (k : ℕ)) * psiInv ^ (2 * (i : ℕ))) ^ (j : ℕ) := by
    intro k
    exact (Finset.mul_sum _ _ _).symm
  rw [Finset.sum_congr rfl fun k _ => hterm k]
  have hzero : ∀ k : Fin 512, k ≠ i →
      a k * (psi ^ (k : ℕ) * psiInv ^ (i : ℕ))
          * ∑ j : Fin 512,
            (psi ^ (2 * (k : ℕ)) * psiInv ^ (2 * (i : ℕ))) ^ (j : ℕ) = 0 := by
    intro k hk
    rw [geom_sum_zero_of_root _ (twiddle_ne_one k i hk) (twiddle_pow_512 k i),
      mul_zero]
  rw [Finset.sum_eq_single i (fun k _ hk => hzero k hk)
    (fun h => absurd (Finset.mem_univ i) h)]
  have hx1 : psi ^ (2 * (i : ℕ)) * psiInv ^ (2 * (i : ℕ)) = 1 :=
    pow_psi_mul_pow_psiInv _
  rw [hx1]
  have hone : ∑ j : Fin 512, (1 : Zq) ^ (j : ℕ) = 512 := by
    simp
  rw [hone, pow_psi_mul_pow_psiInv]
  rw [mul_one, mul_comm (a i), ← mul_assoc, nInv_mul_512, one_mul]

/-! ### Exactness of the norm check (C1) -/

theorem left_le_or (a b : Nat) : a ≤ a ||| b := by
  apply Nat.le_of_testBit
  intro i hi
  rw [Nat.testBit_or, hi, Bool.true_or]

theorem right_le_or (a b : Nat) : b ≤ a ||| b := by
  apply Nat.le_of_testBit
  intro i hi
  rw [Nat.testBit_or, hi, Bool.or_true]

theorem sqTerm_le (z : Int) (h1 : -32768 ≤ z) (h2 : z ≤ 32767) :
    sqTerm z ≤ 1073741824 := by
  have h3 : z.natAbs ≤ 32768 := by omega
  have h4 : sqTerm z = z.natAbs * z.natAbs := by
    rw [sqTerm]
    have h := Int.natAbs_mul_self (a := z)
    omega
  rw [h4]
  calc z.natAbs * z.natAbs ≤ 32768 * 32768 := Nat.mul_le_mul h3 h3
    _ = 1073741824 := by norm_num

theorem is_short_fold (terms : List Nat)
    (ht : ∀ t ∈ terms, t ≤ 1073741824) :
    ∀ s ng T : Nat, s < U32 → ng < U32 →
    (T < 2147483648 → (s = T ∧ ng < 2147483648)) →
    (2147483648 ≤ T → 2147483648 ≤ ng) →
    (terms.foldl is_short_step (s, ng)).1 < U32 ∧
    (terms.foldl is_short_step (s, ng)).2 < U32 ∧
    (T + terms.sum < 2147483648 →
      (terms.foldl is_short_step (s, ng)).1 = T + terms.sum ∧
      (terms.foldl is_short_step (s, ng)).2 < 2147483648) ∧
    (2147483648 ≤ T + terms.sum →
      2147483648 ≤ (terms.foldl is_short_step (s, ng)).2) := by
  induction terms with
  | nil =>
    intro s ng T hs hng h2 h3
    simp only [List.foldl_nil, List.sum_nil, Nat.add_zero]
    exact ⟨hs, hng, h2, h3⟩
  | cons t rest ih =>
    intro s ng T hs hng h2 h3
    have htt : t ≤ 1073741824 := ht t (by simp)
    have hrest : ∀ x ∈ rest, x ≤ 1073741824 :=
      fun x hx => ht x (by simp [hx])
    rw [List.foldl_cons, List.sum_cons]
    simp only [is_short_step]
    have hU : 0 < U32 := by rw [U32]; omega
    have hs' : (s + t) % U32 < U32 := Nat.mod_lt _ hU
    have hpow : (2 : Nat) ^ 32 = U32 := by rw [U32]; norm_num
    have hng' : ng ||| ((s + t) % U32) < U32 :=
      lt_of_lt_of_eq
        (Nat.or_lt_two_pow (lt_of_lt_of_eq hng hpow.symm)
          (lt_of_lt_of_eq hs' hpow.symm)) hpow
    have h2' : T + t < 2147483648 →
        ((s + t) % U32 = T + t ∧ ng ||| ((s + t) % U32) < 2147483648) := by
      intro hTt
      obtain ⟨hse, hnge⟩ := h2 (by omega)
      have hm : (s + t) % U32 = T + t := by
        rw [hse, Nat.mod_eq_of_lt (by rw [U32]; omega)]
      refine ⟨hm, ?_⟩
      have := Nat.or_lt_two_pow (n := 31) (x := ng) (y := (s + t) % U32)
        (by omega) (by rw [hm]; omega)
      omega
    have h3' : 2147483648 ≤ T + t →
        2147483648 ≤ ng ||| ((s + t) % U32) := by
      intro hTt
      rcases Nat.lt_or_ge T 2147483648 with hT | hT
      · obtain ⟨hse, hnge⟩ := h2 hT
        have hm : (s + t) % U32 = T + t := by
          rw [hse, Nat.mod_eq_of_lt (by rw [U32]; omega)]
        calc (2147483648 : Nat) ≤ (s + t) % U32 := by omega
          _ ≤ ng ||| ((s + t) % U32) := right_le_or _ _
      · calc (2147483648 : Nat) ≤ ng := h3 hT
          _ ≤ ng ||| ((s + t) % U32) := left_le_or _ _
    have hmain := ih hrest ((s + t) % U32) (ng ||| ((s + t) % U32)) (T + t)
      hs' hng' h2' h3'
    refine ⟨hmain.1, hmain.2.1, ?_, ?_⟩
    · intro hlt
      have := hmain.2.2.1 (by omega)
      exact ⟨by omega, this.2⟩
    · intro hge
      exact hmain.2.2.2 (by omega)

theorem flatMap_sqTerm_sum (l : List (Int × Int)) :
    (l.flatMap fun p => [sqTerm p.1, sqTerm p.2]).sum
      = (l.map fun p => sqTerm p.1 + sqTerm p.2).sum := by
  induction l with
  | nil => rfl
  | cons p rest ih =>
    simp only [List.flatMap_cons, List.map_cons, List.sum_append,
      List.sum_cons, List.sum_nil, List.sum_cons]
    omega

theorem map_sum_getD (l : List (Int × Int)) (f : Int × Int → Nat) :
    (l.map f).sum = ∑ i in Finset.range l.length, f (l.getD i (0, 0)) := by
  induction l with
  | nil => rfl
  | cons p rest ih =>
    rw [List.map_cons, List.sum_cons, List.length_cons,
      Finset.sum_range_succ', ih]
    simp [List.getD_cons_succ, List.getD_cons_zero]
    omega

theorem zip_getD (s1 s2 : List Int) (i : Nat) (hi : i < 512)
    (h1 : s1.length = 512) (h2 : s2.length = 512) :
    (s1.zip s2).getD i (0, 0) = (s1.getD i 0, s2.getD i 0) := by
  have hz : (s1.zip s2).length = 512 := by
    rw [List.length_zip, h1, h2]
    rfl
  rw [List.getD_eq_getElem _ _ (by omega), List.getD_eq_getElem _ _ (by omega),
    List.getD_eq_getElem _ _ (by omega), List.getElem_zip]

/-- C1: for 512-element vectors of `i16` values, `is_short` decides the
exact squared-norm bound: it returns true iff the true integer value of
Σ s1[i]² + s2[i]² is at most 34034726 — the `u32` wrap-around of the
running sum is fully compensated by the sticky overflow register. -/
theorem is_short_iff_exact_sum (s1 s2 : List Int)
    (h1 : s1.length = 512) (h2 : s2.length = 512)
    (hr1 : ∀ z ∈ s1, -32768 ≤ z ∧ z ≤ 32767)
    (hr2 : ∀ z ∈ s2, -32768 ≤ z ∧ z ≤ 32767) :
    (is_short s1 s2 = true ↔
      ∑ i in Finset.range 512,
        (s1.getD i 0 * s1.getD i 0 + s2.getD i 0 * s2.getD i 0)
          ≤ (34034726 : ℤ)) := by
  have hterms : ∀ t ∈ (s1.zip s2).flatMap fun p => [sqTerm p.1, sqTerm p.2],
      t ≤ 1073741824 := by
    intro t hmem
    rw [List.mem_flatMap] at hmem
    obtain ⟨p, hp, ht⟩ := hmem
    obtain ⟨hp1, hp2⟩ := List.of_mem_zip hp
    simp only [List.mem_cons, List.not_mem_nil, or_false] at ht
    rcases ht with h | h
    · obtain ⟨ha, hb⟩ := hr1 p.1 hp1
      exact h ▸ sqTerm_le p.1 ha hb
    · obtain ⟨ha, hb⟩ := hr2 p.2 hp2
      exact h ▸ sqTerm_le p.2 ha hb
  have hfold := is_short_fold _ hterms 0 0 0 (by rw [U32]; omega)
    (by rw [U32]; omega) (fun _ => ⟨rfl, by omega⟩) (fun h => by omega)
  set terms := (s1.zip s2).flatMap fun p => [sqTerm p.1, sqTerm p.2]
    with hterms_def
  set st := terms.foldl is_short_step (0, 0) with hst
  obtain ⟨hst1, hst2, hlow, hhigh⟩ := hfold
  simp only [Nat.zero_add] at hlow hhigh
  have hN : (terms.sum : ℤ) = ∑ i in Finset.range 512,
      (s1.getD i 0 * s1.getD i 0 + s2.getD i 0 * s2.getD i 0) := by
    rw [hterms_def, flatMap_sqTerm_sum, map_sum_getD]
    have hzlen : (s1.zip s2).length = 512 := by
      rw [List.length_zip, h1, h2]
      rfl
    rw [hzlen, Nat.cast_sum]
    refine Finset.sum_congr rfl fun i hi => ?_
    rw [Finset.mem_range] at hi
    rw [zip_getD s1 s2 i hi h1 h2]
    simp only [Nat.cast_add, sqTerm]
    have e1 : ((s1.getD i 0 * s1.getD i 0).toNat : ℤ)
        = s1.getD i 0 * s1.getD i 0 :=
      Int.toNat_of_nonneg (mul_self_nonneg _)
    have e2 : ((s2.getD i 0 * s2.getD i 0).toNat : ℤ)
        = s2.getD i 0 * s2.getD i 0 :=
      Int.toNat_of_nonneg (mul_self_nonneg _)
    rw [e1, e2]
  have hmain : is_short s1 s2 = true ↔ terms.sum ≤ L2_BOUND_512 := by
    rw [is_short]
    rcases Nat.lt_or_ge terms.sum 2147483648 with hN1 | hN1
    · obtain ⟨hs_eq, hng_lt⟩ := hlow hN1
      have hshift : st.2 >>> 31 = 0 := by
        rw [Nat.shiftRight_eq_div_pow]
        omega
      rw [← hst, hshift]
      have hz : (U32 - 0) % U32 = 0 := by rw [U32]
      rw [hz, Nat.or_zero, hs_eq]
      simp [L2_BOUND_512]
    · have hng_ge := hhigh hN1
      have hshift : st.2 >>> 31 = 1 := by
        rw [Nat.shiftRight_eq_div_pow]
        rw [U32] at hst2
        omega
      rw [← hst, hshift]
      have hz : (U32 - 1) % U32 = 4294967295 := by rw [U32]
      rw [hz]
      have hge : 4294967295 ≤ st.1 ||| 4294967295 := right_le_or _ _
      constructor
      · intro h
        rw [decide_eq_true_iff] at h
        rw [L2_BOUND_512] at h
        omega
      · intro h
        exfalso
        rw [L2_BOUND_512] at h
        omega
  rw [hmain, ← hN]
  rw [L2_BOUND_512]
  exact_mod_cast Iff.rfl

/-- Witness for C1 at the all-zero vectors: `is_short` accepts and the
exact sum 0 is within the bound. -/
theorem is_short_iff_exact_sum_witness :
    is_short (List.replicate 512 0) (List.replicate 512 0) = true ↔
      ∑ i in Finset.range 512,
        ((List.replicate 512 (0 : ℤ)).getD i 0
            * (List.replicate 512 (0 : ℤ)).getD i 0
          + (List.replicate 512 (0 : ℤ)).getD i 0
            * (List.replicate 512 (0 : ℤ)).getD i 0) ≤ (34034726 : ℤ) :=
  is_short_iff_exact_sum (List.replicate 512 0) (List.replicate 512 0)
    (by simp) (by simp)
    (fun z hz => by
      rw [List.eq_of_mem_replicate hz]
      omega)
    (fun z hz => by
      rw [List.eq_of_mem_replicate hz]
      omega)

/-! ### Full characterisation of the public-key decoder (C6) -/

/-- Value of a byte string read MSB-first as one big-endian integer, as
`decode_pubkey` accumulates it. -/
def bytesToNat (l : List Nat) : Nat :=
  l.foldl (fun a b => a * 256 + b) 0

/-- The `m` consecutive 14-bit fields of the value `V`, most significant
first: the coefficient stream that `decode_pubkey` extracts from the
payload. -/
def chunks14 : Nat → Nat → List Nat
  | 0, _ => []
  | m + 1, V => (V / 2 ^ (14 * m) % 16384) :: chunks14 m V

theorem bytesToNat_foldl (l : List Nat) : ∀ a : Nat,
    l.foldl (fun a b => a * 256 + b) a
      = a * 2 ^ (8 * l.length) + bytesToNat l := by
  induction l with
  | nil => intro a; simp [bytesToNat]
  | cons b rest ih =>
    intro a
    rw [List.foldl_cons, ih]
    have hc : bytesToNat (b :: rest)
        = b * 2 ^ (8 * rest.length) + bytesToNat rest := by
      show List.foldl _ 0 (b :: rest) = _
      rw [List.foldl_cons, ih]
      norm_num
    rw [hc]
    simp only [List.length_cons]
    have hp : (2:Nat) ^ (8 * (rest.length + 1)) = 2 ^ (8 * rest.length) * 256 := by
      rw [show 8 * (rest.length + 1) = 8 * rest.length + 8 by ring, pow_add]
      norm_num
    rw [hp]
    ring

theorem bytesToNat_cons (b : Nat) (l : List Nat) :
    bytesToNat (b :: l) = b * 2 ^ (8 * l.length) + bytesToNat l := by
  rw [bytesToNat, List.foldl_cons, bytesToNat_foldl]
  simp

theorem bytesToNat_lt (l : List Nat) (h : ∀ x ∈ l, x < 256) :
    bytesToNat l < 2 ^ (8 * l.length) := by
  induction l with
  | nil => simp [bytesToNat]
  | cons b rest ih =>
    have hb : b < 256 := h b (List.mem_cons_self b rest)
    have hrest := ih fun x hx => h x (List.mem_cons_of_mem b hx)
    rw [bytesToNat_cons]
    simp only [List.length_cons]
    have hp : (2:Nat) ^ (8 * (rest.length + 1)) = 2 ^ (8 * rest.length) * 256 := by
      rw [show 8 * (rest.length + 1) = 8 * rest.length + 8 by ring, pow_add]
      norm_num
    rw [hp]
    have hble : b * 2 ^ (8 * rest.length) ≤ 255 * 2 ^ (8 * rest.length) :=
      Nat.mul_le_mul_right _ (by omega)
    omega

theorem mod_pow_mod (x a b : Nat) (h : a ≤ b) : x % 2 ^ b % 2 ^ a = x % 2 ^ a :=
  Nat.mod_mod_of_dvd x (pow_dvd_pow 2 h)

theorem top_extract (A R k n2 : Nat) (hR : R < 2 ^ k) :
    (A % 2 ^ (n2 + 14) * 2 ^ k + R) / 2 ^ (k + n2) % 16384
      = A / 2 ^ n2 % 16384 := by
  have hkpos : 0 < (2:Nat) ^ k := Nat.pos_pow_of_pos k (by omega)
  have h1 : (A % 2 ^ (n2 + 14) * 2 ^ k + R) / 2 ^ k = A % 2 ^ (n2 + 14) := by
    rw [mul_comm, Nat.mul_add_div hkpos, Nat.div_eq_of_lt hR, Nat.add_zero]
  have h2 : (A % 2 ^ (n2 + 14) * 2 ^ k + R) / 2 ^ (k + n2)
      = A % 2 ^ (n2 + 14) / 2 ^ n2 := by
    rw [show (2:Nat) ^ (k + n2) = 2 ^ k * 2 ^ n2 from pow_add 2 k n2,
      ← Nat.div_div_eq_div_mul, h1]
  rw [h2]
  have h3 : A % 2 ^ (n2 + 14) / 2 ^ n2 = A / 2 ^ n2 % 2 ^ 14 := by
    rw [pow_add]
    exact Nat.mod_mul_right_div_self A (2 ^ n2) (2 ^ 14)
  rw [h3, show (16384:Nat) = 2 ^ 14 by norm_num,
    Nat.mod_mod_of_dvd _ dvd_rfl]

theorem low_extract (A R k n2 : Nat) (hR : R < 2 ^ k) :
    (A % 2 ^ (n2 + 14) * 2 ^ k + R) % 2 ^ (k + n2)
      = A % 2 ^ n2 * 2 ^ k + R := by
  have hsplit : A % 2 ^ (n2 + 14) % 2 ^ n2 = A % 2 ^ n2 :=
    mod_pow_mod A n2 (n2 + 14) (by omega)
  have h1 : A % 2 ^ (n2 + 14) * 2 ^ k % (2 ^ n2 * 2 ^ k)
      = A % 2 ^ n2 * 2 ^ k := by
    rw [Nat.mul_mod_mul_right, hsplit]
  have hpw : (2:Nat) ^ (k + n2) = 2 ^ n2 * 2 ^ k := by
    rw [pow_add]; ring
  rw [hpw, Nat.add_mod, h1]
  have hRm : R % (2 ^ n2 * 2 ^ k) = R := by
    apply Nat.mod_eq_of_lt
    calc R < 2 ^ k := hR
      _ ≤ 2 ^ n2 * 2 ^ k :=
        Nat.le_mul_of_pos_left _ (Nat.pos_pow_of_pos n2 (by omega))
  rw [hRm]
  apply Nat.mod_eq_of_lt
  have hA : A % 2 ^ n2 < 2 ^ n2 :=
    Nat.mod_lt _ (Nat.pos_pow_of_pos n2 (by omega))
  calc A % 2 ^ n2 * 2 ^ k + R < A % 2 ^ n2 * 2 ^ k + 2 ^ k := by omega
    _ = (A % 2 ^ n2 + 1) * 2 ^ k := by ring
    _ ≤ 2 ^ n2 * 2 ^ k := Nat.mul_le_mul_right _ (by omega)

theorem chunks14_congr (m : Nat) : ∀ V W : Nat,
    V % 2 ^ (14 * m) = W % 2 ^ (14 * m) → chunks14 m V = chunks14 m W := by
  induction m with
  | zero => intro V W _; rfl
  | succ m ih =>
    intro V W h
    rw [chunks14, chunks14]
    have hdig : ∀ X : Nat, X % 2 ^ (14 * (m + 1)) / 2 ^ (14 * m)
        = X / 2 ^ (14 * m) % 2 ^ 14 := by
      intro X
      rw [show 14 * (m + 1) = 14 * m + 14 by ring, pow_add]
      exact Nat.mod_mul_right_div_self X (2 ^ (14 * m)) (2 ^ 14)
    have hhead : V / 2 ^ (14 * m) % 16384 = W / 2 ^ (14 * m) % 16384 := by
      have hv := hdig V
      have hw := hdig W
      rw [h, hw] at hv
      rw [show (16384:Nat) = 2 ^ 14 by norm_num]
      exact hv ▸ rfl
    have htail : chunks14 m V = chunks14 m W := by
      apply ih
      have h2 := congrArg (fun z => z % 2 ^ (14 * m)) h
      simpa [mod_pow_mod _ (14 * m) (14 * (m + 1)) (by omega)] using h2
    rw [hhead, htail]

theorem pk_loop_spec : ∀ (rem : List Nat) (acc acc_len u : Nat)
    (hacc : List Nat),
    (∀ x ∈ rem, x < 256) → acc < U32 → acc_len ≤ 13 → u ≤ 512 →
    8 * rem.length + acc_len = 14 * (512 - u) →
    pk_loop rem acc acc_len u hacc =
      if ∀ c ∈ chunks14 (512 - u)
          (acc % 2 ^ acc_len * 2 ^ (8 * rem.length) + bytesToNat rem), c < Q
      then DRes.ok (hacc ++ chunks14 (512 - u)
          (acc % 2 ^ acc_len * 2 ^ (8 * rem.length) + bytesToNat rem))
      else DRes.fail := by
  intro rem
  induction rem with
  | nil =>
    intro acc acc_len u hacc hb h32 h13 hu hbits
    simp only [List.length_nil] at hbits
    have hu512 : 512 - u = 0 := by omega
    have hl0 : acc_len = 0 := by omega
    subst hl0
    rw [pk_loop, if_pos (show u ≥ 512 by omega),
      if_neg (show ¬ (0:Nat) ≥ 32 by omega),
      if_neg (show ¬ (acc &&& (1 <<< 0 - 1) ≠ 0) by
        rw [show (1 <<< 0 : Nat) - 1 = 0 from rfl, Nat.and_zero]
        omega)]
    rw [hu512]
    simp [chunks14]
  | cons b rest ih =>
    intro acc acc_len u hacc hb h32 h13 hu hbits
    simp only [List.length_cons] at hbits
    have hblt : b < 256 := hb b (List.mem_cons_self b rest)
    have hbrest : ∀ x ∈ rest, x < 256 :=
      fun x hx => hb x (List.mem_cons_of_mem b hx)
    have hult : u < 512 := by omega
    have hshl : (acc <<< 8) % U32 = 256 * (acc % 16777216) := by
      rw [Nat.shiftLeft_eq, show (2:Nat) ^ 8 = 256 by norm_num,
        show (U32 : Nat) = 16777216 * 256 by rw [U32],
        Nat.mul_mod_mul_right]
      ring
    have hacc' : (acc <<< 8) % U32 ||| b = 256 * (acc % 16777216) + b := by
      rw [hshl, show (256 : Nat) = 2 ^ 8 by norm_num]
      exact (Nat.mul_add_lt_is_or hblt _).symm
    have hacc'32 : 256 * (acc % 16777216) + b < U32 := by
      have hmm := Nat.mod_lt acc (show 0 < 16777216 by norm_num)
      rw [U32]
      omega
    have hmod : ∀ m : Nat, m ≤ 24 →
        (256 * (acc % 16777216) + b) % 2 ^ (m + 8)
          = acc % 2 ^ m * 256 + b := by
      intro m hm
      have h1 : (2:Nat) ^ (m + 8) = 2 ^ m * 256 := by
        rw [pow_add]; norm_num
      have h2 : 256 * (acc % 16777216) % (2 ^ m * 256)
          = acc % 2 ^ m * 256 := by
        rw [mul_comm (256 : Nat) (acc % 16777216), Nat.mul_mod_mul_right]
        congr 1
        exact mod_pow_mod acc m 24 hm
      have hmlt : acc % 2 ^ m < 2 ^ m :=
        Nat.mod_lt _ (Nat.pos_pow_of_pos m (by omega))
      rw [h1, Nat.add_mod, h2]
      have hbm : b % (2 ^ m * 256) = b := by
        apply Nat.mod_eq_of_lt
        have hle : (256:Nat) ≤ 2 ^ m * 256 :=
          Nat.le_mul_of_pos_left _ (Nat.pos_pow_of_pos m (by omega))
        omega
      rw [hbm]
      apply Nat.mod_eq_of_lt
      calc acc % 2 ^ m * 256 + b < acc % 2 ^ m * 256 + 256 := by omega
        _ = (acc % 2 ^ m + 1) * 256 := by ring
        _ ≤ 2 ^ m * 256 := Nat.mul_le_mul_right _ (by omega)
    have hT : acc % 2 ^ acc_len * 2 ^ (8 * (rest.length + 1))
          + bytesToNat (b :: rest)
        = (256 * (acc % 16777216) + b) % 2 ^ (acc_len + 8)
            * 2 ^ (8 * rest.length) + bytesToNat rest := by
      rw [hmod acc_len (by omega), bytesToNat_cons,
        show 8 * (rest.length + 1) = 8 * rest.length + 8 by ring, pow_add]
      ring
    rw [pk_loop, if_neg (show ¬ u ≥ 512 by omega)]
    dsimp only
    rw [hacc']
    simp only [List.length_cons]
    rw [hT]
    by_cases hn1 : acc_len + 8 ≥ 14
    · rw [if_pos hn1, if_neg (show ¬ acc_len + 8 - 14 ≥ 32 by omega)]
      set A := 256 * (acc % 16777216) + b with hA
      set n2 := acc_len + 8 - 14 with hn2
      have hwv : (A >>> n2) &&& 0x3FFF = A / 2 ^ n2 % 16384 := by
        rw [Nat.shiftRight_eq_div_pow, and_16383_eq]
      have hm1 : 512 - u = (512 - (u + 1)) + 1 := by omega
      have hR : bytesToNat rest < 2 ^ (8 * rest.length) :=
        bytesToNat_lt rest hbrest
      have hn14 : acc_len + 8 = n2 + 14 := by omega
      have h14m : 14 * (512 - (u + 1)) = 8 * rest.length + n2 := by omega
      have hhead : (A % 2 ^ (acc_len + 8) * 2 ^ (8 * rest.length)
            + bytesToNat rest) / 2 ^ (14 * (512 - (u + 1))) % 16384
          = A / 2 ^ n2 % 16384 := by
        rw [h14m, hn14]
        exact top_extract A (bytesToNat rest) (8 * rest.length) n2 hR
      have hbnd : A % 2 ^ n2 * 2 ^ (8 * rest.length) + bytesToNat rest
          < 2 ^ (14 * (512 - (u + 1))) := by
        rw [h14m]
        have hAn : A % 2 ^ n2 < 2 ^ n2 :=
          Nat.mod_lt _ (Nat.pos_pow_of_pos n2 (by omega))
        calc A % 2 ^ n2 * 2 ^ (8 * rest.length) + bytesToNat rest
            < A % 2 ^ n2 * 2 ^ (8 * rest.length) + 2 ^ (8 * rest.length) := by
              omega
          _ = (A % 2 ^ n2 + 1) * 2 ^ (8 * rest.length) := by ring
          _ ≤ 2 ^ n2 * 2 ^ (8 * rest.length) :=
              Nat.mul_le_mul_right _ (by omega)
          _ = 2 ^ (8 * rest.length + n2) := by rw [pow_add]; ring
      have hlow : (A % 2 ^ (acc_len + 8) * 2 ^ (8 * rest.length)
            + bytesToNat rest) % 2 ^ (14 * (512 - (u + 1)))
          = A % 2 ^ n2 * 2 ^ (8 * rest.length) + bytesToNat rest := by
        rw [h14m, hn14]
        exact low_extract A (bytesToNat rest) (8 * rest.length) n2 hR
      have hchunks : chunks14 (512 - u)
            (A % 2 ^ (acc_len + 8) * 2 ^ (8 * rest.length) + bytesToNat rest)
          = A / 2 ^ n2 % 16384 :: chunks14 (512 - (u + 1))
              (A % 2 ^ n2 * 2 ^ (8 * rest.length) + bytesToNat rest) := by
        rw [hm1, chunks14, hhead]
        congr 1
        apply chunks14_congr
        rw [hlow]
        exact (Nat.mod_eq_of_lt hbnd).symm
      rw [hwv, hchunks]
      by_cases hwQ : A / 2 ^ n2 % 16384 ≥ Q
      · rw [if_pos hwQ,
          if_neg (show ¬ ∀ c ∈ A / 2 ^ n2 % 16384 :: chunks14 (512 - (u + 1))
              (A % 2 ^ n2 * 2 ^ (8 * rest.length) + bytesToNat rest), c < Q from
            fun hall => absurd (hall _ (List.mem_cons_self _ _)) (by omega))]
      · rw [if_neg hwQ]
        rw [ih A n2 (u + 1) (hacc ++ [A / 2 ^ n2 % 16384]) hbrest hacc'32
          (by omega) (by omega) (by omega)]
        simp only [List.forall_mem_cons]
        by_cases hall : ∀ c ∈ chunks14 (512 - (u + 1))
            (A % 2 ^ n2 * 2 ^ (8 * rest.length) + bytesToNat rest), c < Q
        · rw [if_pos hall, if_pos ⟨by omega, hall⟩]
          simp
        · rw [if_neg hall, if_neg (fun hc => hall hc.2)]
    · rw [if_neg hn1]
      exact ih (256 * (acc % 16777216) + b) (acc_len + 8) u hacc hbrest
        hacc'32 (by omega) hu (by omega)

/-- C6: `decode_pubkey` succeeds exactly on 897-byte inputs with header
byte 9 whose 512 consecutive 14-bit MSB-first fields are all below
q = 12289, and the decoded array is exactly that field list.  (For a
897-byte input the 896-byte payload is consumed with no bits left over,
so the decoder reaches its final state with an empty accumulator and
the leftover-bits check holds automatically.) -/
theorem decode_pubkey_spec (pk : List Nat) (h : List Nat)
    (hb : ∀ x ∈ pk, x < 256) :
    (decode_pubkey pk = .ok h ↔
      pk.length = 897 ∧ pk.getD 0 0 = 9 ∧
      (∀ c ∈ chunks14 512 (bytesToNat (pk.drop 1)), c < Q) ∧
      h = chunks14 512 (bytesToNat (pk.drop 1))) := by
  rw [decode_pubkey]
  by_cases hlen : pk.length = 897
  · rw [if_neg (by omega)]
    by_cases hget : pk.getD 0 0 = 9
    · rw [if_neg (by omega)]
      have hdropb : ∀ x ∈ pk.drop 1, x < 256 :=
        fun x hx => hb x (List.mem_of_mem_drop hx)
      have hdlen : (pk.drop 1).length = 896 := by
        rw [List.length_drop, hlen]
      rw [pk_loop_spec (pk.drop 1) 0 0 0 [] hdropb (by rw [U32]; omega)
        (by omega) (by omega) (by rw [hdlen])]
      rw [hdlen]
      simp only [pow_zero, Nat.mod_one, Nat.zero_mul, Nat.zero_add,
        Nat.sub_zero, List.nil_append]
      split
      · rename_i hall
        simp only [DRes.ok.injEq]
        constructor
        · intro he
          exact ⟨hlen, hget, hall, he.symm⟩
        · intro ⟨_, _, _, he⟩
          exact he.symm
      · rename_i hnall
        constructor
        · intro he
          exact absurd he (fun hc => DRes.noConfusion hc)
        · intro ⟨_, _, hall, _⟩
          exact absurd hall hnall
    · rw [if_pos (by omega)]
      constructor
      · intro he
        exact absurd he (fun hc => DRes.noConfusion hc)
      · intro ⟨_, hg, _, _⟩
        exact absurd hg hget
  · rw [if_pos (by omega)]
    constructor
    · intro he
      exact absurd he (fun hc => DRes.noConfusion hc)
    · intro ⟨hl, _, _, _⟩
      exact absurd hl hlen

/-- Witness for C6 at the all-zero public key: the decoder accepts and
returns the 512 zero coefficients, matching the 14-bit field list of
the zero payload. -/
theorem decode_pubkey_spec_witness :
    decode_pubkey zeroPk = .ok (List.replicate 512 0) ↔
      zeroPk.length = 897 ∧ zeroPk.getD 0 0 = 9 ∧
      (∀ c ∈ chunks14 512 (bytesToNat (zeroPk.drop 1)), c < Q) ∧
      List.replicate 512 0 = chunks14 512 (bytesToNat (zeroPk.drop 1)) :=
  decode_pubkey_spec zeroPk (List.replicate 512 0) (by
    intro x hx
    rw [zeroPk] at hx
    rcases List.mem_cons.mp hx with h | h
    · omega
    · rw [List.eq_of_mem_replicate h]
      omega)

/-! ### Canonical-form soundness of the compressed signature decoder (C7) -/

/-- The `n` low bits of `x`, most significant first: the order in which
the compressed decoder consumes the bit stream. -/
def bitsBE : Nat → Nat → List Bool
  | 0, _ => []
  | n + 1, x => (decide (x / 2 ^ n % 2 = 1)) :: bitsBE n x

/-- The whole MSB-first bit stream of a byte string. -/
def bitsOfBytes (l : List Nat) : List Bool :=
  l.flatMap (bitsBE 8)

/-- Canonical compressed encoding of one coefficient: sign bit, the
seven low magnitude bits MSB-first, then the high magnitude in unary
(one `false` per 128) closed by a `true`. -/
def encBits (c : Int) : List Bool :=
  decide (c < 0) :: (bitsBE 7 (c.natAbs % 128)
    ++ List.replicate (c.natAbs / 128) false ++ [true])

/-- The bit stream still to be consumed in a decoder state: `acc_len`
buffered bits (MSB first), then the bytes not yet loaded. -/
def stream (rem : List Nat) (acc acc_len : Nat) : List Bool :=
  bitsBE acc_len acc ++ bitsOfBytes rem

theorem bitsBE_length (n : Nat) : ∀ x : Nat, (bitsBE n x).length = n := by
  induction n with
  | zero => intro x; rfl
  | succ n ih => intro x; rw [bitsBE, List.length_cons, ih]

theorem bitsBE_congr (n : Nat) : ∀ x y : Nat,
    x % 2 ^ n = y % 2 ^ n → bitsBE n x = bitsBE n y := by
  induction n with
  | zero => intro x y _; rfl
  | succ n ih =>
    intro x y h
    rw [bitsBE, bitsBE]
    have hdig : ∀ z : Nat, z % 2 ^ (n + 1) / 2 ^ n = z / 2 ^ n % 2 := by
      intro z
      rw [pow_succ]
      exact Nat.mod_mul_right_div_self z (2 ^ n) 2
    have hhead : x / 2 ^ n % 2 = y / 2 ^ n % 2 := by
      have hx := hdig x
      have hy := hdig y
      rw [h, hy] at hx
      exact hx.symm
    have htail : bitsBE n x = bitsBE n y := by
      apply ih
      have h2 := congrArg (fun z => z % 2 ^ n) h
      simpa [mod_pow_mod _ n (n + 1) (by omega)] using h2
    rw [hhead, htail]

theorem bitsBE_split (a : Nat) : ∀ (b x : Nat),
    bitsBE (a + b) x = bitsBE a (x / 2 ^ b) ++ bitsBE b x := by
  induction a with
  | zero => intro b x; rw [Nat.zero_add]; rfl
  | succ a ih =>
    intro b x
    rw [show a + 1 + b = (a + b) + 1 by omega, bitsBE, bitsBE, ih]
    rw [Nat.div_div_eq_div_mul, ← pow_add]
    rw [show b + a = a + b by omega]
    rfl

theorem bitsBE_zero (n : Nat) : bitsBE n 0 = List.replicate n false := by
  induction n with
  | zero => rfl
  | succ n ih =>
    rw [bitsBE, ih, List.replicate_succ]
    norm_num

theorem bitsBE_all_zero (n x : Nat) (h : x % 2 ^ n = 0) :
    bitsBE n x = List.replicate n false := by
  rw [bitsBE_congr n x 0 (by simpa using h), bitsBE_zero]

/-- The byte-load step of the decoders, as seen by the bit stream. -/
theorem acc_shift_or (acc b : Nat) (hb : b < 256) :
    (acc <<< 8) % U32 ||| b = 256 * (acc % 16777216) + b := by
  rw [Nat.shiftLeft_eq, show (2:Nat) ^ 8 = 256 by norm_num,
    show (U32 : Nat) = 16777216 * 256 by rw [U32],
    Nat.mul_mod_mul_right]
  rw [mul_comm (acc % 16777216) 256, show (256 : Nat) = 2 ^ 8 by norm_num]
  exact (Nat.mul_add_lt_is_or hb _).symm

theorem bitsBE_load (acc b acc_len : Nat) (hb : b < 256) (hl : acc_len ≤ 24) :
    bitsBE (acc_len + 8) ((acc <<< 8) % U32 ||| b)
      = bitsBE acc_len acc ++ bitsBE 8 b := by
  rw [acc_shift_or acc b hb, bitsBE_split]
  have h1 : (256 * (acc % 16777216) + b) / 2 ^ 8 = acc % 16777216 := by
    omega
  rw [h1]
  congr 1
  · apply bitsBE_congr
    exact mod_pow_mod acc acc_len 24 hl
  · apply bitsBE_congr
    omega
theorem bitsBE_succ (n x : Nat) :
    bitsBE (n + 1) x = (decide (x / 2 ^ n % 2 = 1)) :: bitsBE n x := rfl

theorem stream_load (b : Nat) (rest : List Nat) (acc acc_len : Nat)
    (hb : b < 256) (hl : acc_len ≤ 24) :
    stream (b :: rest) acc acc_len
      = stream rest ((acc <<< 8) % U32 ||| b) (acc_len + 8) := by
  rw [stream, stream, bitsBE_load acc b acc_len hb hl, bitsOfBytes,
    List.flatMap_cons, ← bitsOfBytes, List.append_assoc]

theorem stream_head (rem : List Nat) (acc n : Nat) :
    stream rem acc (n + 1)
      = (decide (acc / 2 ^ n % 2 = 1)) :: stream rem acc n := by
  rw [stream, stream, bitsBE_succ, List.cons_append]

theorem comp_unary_stream : ∀ (fuel : Nat) (rem : List Nat)
    (v acc acc_len m : Nat) (r2 : List Nat) (v2 a2 l2 m2 : Nat),
    (∀ x ∈ rem, x < 256) → acc_len ≤ 8 → m ≤ 2047 →
    comp_unary fuel rem v acc acc_len m = .ok (r2, v2, a2, l2, m2) →
    ∃ k d, m2 = m + 128 * k ∧ m2 ≤ 2047 ∧ l2 ≤ 7 ∧
      (∀ x ∈ r2, x < 256) ∧ r2 = rem.drop d ∧ d ≤ rem.length ∧ v2 = v + d ∧
      stream rem acc acc_len
        = List.replicate k false ++ true :: stream r2 a2 l2 := by
  intro fuel
  induction fuel with
  | zero =>
    intro rem v acc acc_len m r2 v2 a2 l2 m2 hb hl hm h
    exact absurd h (fun hc => DRes.noConfusion hc)
  | succ fuel ih =>
    intro rem v acc acc_len m r2 v2 a2 l2 m2 hb hl hm h
    rw [comp_unary] at h
    by_cases h0 : acc_len = 0
    · subst h0
      rw [comp_refill.eq_def, if_pos rfl] at h
      rcases rem with - | ⟨b, rest⟩
      · exact absurd h (fun hc => DRes.noConfusion hc)
      · have hblt : b < 256 := hb b (List.mem_cons_self b rest)
        have hrest : ∀ x ∈ rest, x < 256 :=
          fun x hx => hb x (List.mem_cons_of_mem b hx)
        dsimp only at h
        rw [if_neg (show ¬ (8:Nat) - 1 ≥ 32 by omega)] at h
        have hload : stream (b :: rest) acc 0
            = stream rest ((acc <<< 8) % U32 ||| b) 8 := by
          rw [stream_load b rest acc 0 hblt (by omega), Nat.zero_add]
        have hhead : stream rest ((acc <<< 8) % U32 ||| b) 8
            = (decide (((acc <<< 8) % U32 ||| b) / 2 ^ 7 % 2 = 1))
              :: stream rest ((acc <<< 8) % U32 ||| b) 7 := by
          rw [show (8:Nat) = 7 + 1 from rfl, stream_head]
        by_cases hbit : (((acc <<< 8) % U32 ||| b) >>> (8 - 1)) &&& 1 ≠ 0
        · rw [if_pos hbit] at h
          rw [Nat.shiftRight_eq_div_pow, and_one_eq] at hbit
          simp only [DRes.ok.injEq, Prod.mk.injEq] at h
          obtain ⟨hr, hv, ha, hl2, hm2⟩ := h
          refine ⟨0, 1, by omega, by omega, by omega, ?_, ?_,
            by simp, by omega, ?_⟩
          · rw [← hr]; exact hrest
          · rw [← hr]; rfl
          · rw [List.replicate_zero, List.nil_append, hload, hhead,
              ← hr, ← ha, ← hl2]
            congr 1
            simp only [decide_eq_true_eq]
            omega
        · rw [if_neg hbit] at h
          rw [Nat.shiftRight_eq_div_pow, and_one_eq] at hbit
          by_cases hm' : m + 128 > 2047
          · rw [if_pos hm'] at h
            exact absurd h (fun hc => DRes.noConfusion hc)
          · rw [if_neg hm'] at h
            obtain ⟨k, d, hk, hkm, hkl, hkb, hkr, hkd, hkv, hks⟩ :=
              ih rest (v + 1) ((acc <<< 8) % U32 ||| b) (8 - 1) (m + 128)
                r2 v2 a2 l2 m2 hrest (by omega) (by omega) h
            refine ⟨k + 1, 1 + d, by omega, by omega, by omega, hkb, ?_,
              by simp; omega, by omega, ?_⟩
            · rw [hkr, show 1 + d = d + 1 by omega, List.drop_succ_cons]
            · rw [hload, hhead, show (8:Nat) - 1 = 7 from rfl] at *
              rw [hks]
              have hfalse : (decide (((acc <<< 8) % U32 ||| b) / 2 ^ 7 % 2 = 1))
                  = false := by
                simp only [decide_eq_false_iff_not]
                omega
              rw [hfalse, List.replicate_succ, List.cons_append]
    · rw [comp_refill.eq_def, if_neg h0] at h
      dsimp only at h
      rw [if_neg (show ¬ acc_len - 1 ≥ 32 by omega)] at h
      have hl1 : acc_len = (acc_len - 1) + 1 := by omega
      have hhead : stream rem acc acc_len
          = (decide (acc / 2 ^ (acc_len - 1) % 2 = 1))
            :: stream rem acc (acc_len - 1) := by
        rw [hl1, stream_head, ← hl1]
      by_cases hbit : (acc >>> (acc_len - 1)) &&& 1 ≠ 0
      · rw [if_pos hbit] at h
        rw [Nat.shiftRight_eq_div_pow, and_one_eq] at hbit
        simp only [DRes.ok.injEq, Prod.mk.injEq] at h
        obtain ⟨hr, hv, ha, hl2, hm2⟩ := h
        refine ⟨0, 0, by omega, by omega, by omega, ?_, ?_,
          by omega, by omega, ?_⟩
        · rw [← hr]; exact hb
        · rw [← hr]; rfl
        · rw [List.replicate_zero, List.nil_append, hhead,
            ← hr, ← ha, ← hl2]
          congr 1
          simp only [decide_eq_true_eq]
          omega
      · rw [if_neg hbit] at h
        rw [Nat.shiftRight_eq_div_pow, and_one_eq] at hbit
        by_cases hm' : m + 128 > 2047
        · rw [if_pos hm'] at h
          exact absurd h (fun hc => DRes.noConfusion hc)
        · rw [if_neg hm'] at h
          obtain ⟨k, d, hk, hkm, hkl, hkb, hkr, hkd, hkv, hkv2⟩ :=
            ih rem v acc (acc_len - 1) (m + 128)
              r2 v2 a2 l2 m2 hb (by omega) (by omega) h
          refine ⟨k + 1, d, by omega, by omega, by omega, hkb, hkr, hkd,
            by omega, ?_⟩
          rw [hhead, hkv2]
          have hfalse : (decide (acc / 2 ^ (acc_len - 1) % 2 = 1))
              = false := by
            simp only [decide_eq_false_iff_not]
            omega
          rw [hfalse, List.replicate_succ, List.cons_append]

theorem comp_loop_stream : ∀ (count : Nat) (rem : List Nat)
    (v acc acc_len : Nat) (s2 : List Int) (vT : Nat) (s2T : List Int),
    (∀ x ∈ rem, x < 256) → acc_len ≤ 7 →
    comp_loop count rem v acc acc_len s2 = .ok (vT, s2T) →
    ∃ s2New d lenF,
      s2T = s2 ++ s2New ∧ s2New.length = count ∧
      (∀ c ∈ s2New, c.natAbs ≤ 2047) ∧
      d ≤ rem.length ∧ vT = v + d ∧ lenF ≤ 7 ∧
      stream rem acc acc_len
        = s2New.flatMap encBits ++ List.replicate lenF false
            ++ bitsOfBytes (rem.drop d) := by
  intro count
  induction count with
  | zero =>
    intro rem v acc acc_len s2 vT s2T hb hl h
    rw [comp_loop, if_neg (show ¬ acc_len ≥ 32 by omega)] at h
    by_cases hmask : acc &&& (1 <<< acc_len - 1) ≠ 0
    · rw [if_pos hmask] at h
      exact absurd h (fun hc => DRes.noConfusion hc)
    · rw [if_neg hmask] at h
      simp only [DRes.ok.injEq, Prod.mk.injEq] at h
      obtain ⟨hv, hs⟩ := h
      refine ⟨[], 0, acc_len, by rw [← hs]; simp, rfl, by simp,
        by omega, by omega, hl, ?_⟩
      rw [stream, List.drop_zero, List.flatMap_nil, List.nil_append]
      congr 1
      apply bitsBE_all_zero
      rw [Nat.one_shiftLeft, Nat.and_pow_two_sub_one_eq_mod] at hmask
      omega
  | succ count ih =>
    intro rem v acc acc_len s2 vT s2T hb hl h
    rcases rem with - | ⟨byte, rest⟩
    · rw [comp_loop] at h
      exact absurd h (fun hc => DRes.noConfusion hc)
    · have hblt : byte < 256 := hb byte (List.mem_cons_self byte rest)
      have hbrest : ∀ x ∈ rest, x < 256 :=
        fun x hx => hb x (List.mem_cons_of_mem byte hx)
      rw [comp_loop] at h
      rw [if_neg (show ¬ acc_len ≥ 32 by omega)] at h
      dsimp only at h
      set A := (acc <<< 8) % U32 ||| byte with hA
      set y := A >>> acc_len with hy
      rcases hu : comp_unary 17 rest (v + 1) A acc_len (y &&& 127) with
        - | - | ⟨r2, v2, a2, l2, m2⟩
      · rw [hu] at h
        exact absurd h (fun hc => DRes.noConfusion hc)
      · rw [hu] at h
        exact absurd h (fun hc => DRes.noConfusion hc)
      rw [hu] at h
      dsimp only at h
      by_cases hneg : y &&& 128 ≠ 0 ∧ m2 = 0
      · rw [if_pos hneg] at h
        exact absurd h (fun hc => DRes.noConfusion hc)
      rw [if_neg hneg] at h
      have hm127 : y &&& 127 ≤ 2047 := by
        rw [and_127_eq]
        omega
      obtain ⟨k, d1, hk, hkm, hkl, hkb, hkr, hkd, hkv, hks⟩ :=
        comp_unary_stream 17 rest (v + 1) A acc_len (y &&& 127)
          r2 v2 a2 l2 m2 hbrest (by omega) hm127 hu
      obtain ⟨s2New, d2, lenF, hs2T, hlen, hbnd, hd2, hvT, hlF, hstr2⟩ :=
        ih r2 v2 a2 l2 (s2 ++ [if y &&& 128 ≠ 0 then -(m2 : Int)
          else (m2 : Int)]) vT s2T hkb hkl h
      set c : Int := if y &&& 128 ≠ 0 then -(m2 : Int) else (m2 : Int)
        with hc
      have hnabs : c.natAbs = m2 := by
        rw [hc]
        split
        · rw [Int.natAbs_neg, Int.natAbs_ofNat]
        · rw [Int.natAbs_ofNat]
      refine ⟨c :: s2New, 1 + d1 + d2, lenF, ?_, by simp [hlen], ?_,
        ?_, by omega, hlF, ?_⟩
      · rw [hs2T]
        simp
      · intro x hx
        rcases List.mem_cons.mp hx with hx | hx
        · rw [hx, hnabs]
          omega
        · exact hbnd x hx
      · have hr2len : r2.length = rest.length - d1 := by
          rw [hkr, List.length_drop]
        simp only [List.length_cons]
        omega
      · -- the bit-stream equation
        have hsplit8 : bitsBE (acc_len + 8) A
            = bitsBE 8 y ++ bitsBE acc_len A := by
          rw [show acc_len + 8 = 8 + acc_len by omega, bitsBE_split,
            hy, Nat.shiftRight_eq_div_pow]
        have h7 : bitsBE 8 y
            = (decide (y / 2 ^ 7 % 2 = 1)) :: bitsBE 7 (y &&& 127) := by
          rw [show (8:Nat) = 7 + 1 from rfl, bitsBE_succ]
          congr 1
          apply bitsBE_congr
          rw [and_127_eq]
          omega
        have hsign : (decide (y / 2 ^ 7 % 2 = 1)) = decide (c < 0) := by
          have h128 := and_128_eq y
          rcases Classical.em (y &&& 128 ≠ 0) with hs | hs
          · have hm2 : m2 ≠ 0 := fun hz => hneg ⟨hs, hz⟩
            rw [hc, if_pos hs]
            have hbitv : y / 2 ^ 7 % 2 = 1 := by
              rw [show (2:Nat) ^ 7 = 128 by norm_num]
              omega
            simp [hbitv]
            omega
          · rw [hc, if_neg hs]
            have hbitv : y / 128 % 2 = 0 := by omega
            have hm2n : ¬ ((m2 : Int) < 0) := by omega
            rw [show (2:Nat) ^ 7 = 128 by norm_num, hbitv]
            simp [hm2n]
        have hm2mod : m2 % 128 = y &&& 127 := by
          rw [and_127_eq] at *
          omega
        have hm2div : m2 / 128 = k := by
          rw [and_127_eq] at hm127 hk
          have : y % 128 < 128 := Nat.mod_lt _ (by omega)
          omega
        have henc : encBits c = (decide (y / 2 ^ 7 % 2 = 1))
            :: (bitsBE 7 (y &&& 127) ++ List.replicate k false ++ [true]) := by
          rw [encBits, hsign, hnabs, hm2mod, hm2div]
        have hdrop : (byte :: rest).drop (1 + d1 + d2) = r2.drop d2 := by
          rw [show 1 + d1 + d2 = (d1 + d2) + 1 by omega, List.drop_succ_cons,
            hkr, List.drop_drop, Nat.add_comm]
        calc stream (byte :: rest) acc acc_len
            = stream rest A (acc_len + 8) := by
              rw [stream_load byte rest acc acc_len hblt (by omega), ← hA]
          _ = (bitsBE 8 y ++ bitsBE acc_len A) ++ bitsOfBytes rest := by
              rw [stream, hsplit8]
          _ = bitsBE 8 y ++ stream rest A acc_len := by
              rw [List.append_assoc, stream]
          _ = (decide (y / 2 ^ 7 % 2 = 1))
                :: (bitsBE 7 (y &&& 127) ++ stream rest A acc_len) := by
              rw [h7, List.cons_append]
          _ = (decide (y / 2 ^ 7 % 2 = 1))
                :: (bitsBE 7 (y &&& 127) ++ (List.replicate k false
                  ++ true :: (s2New.flatMap encBits
                    ++ List.replicate lenF false
                    ++ bitsOfBytes (r2.drop d2)))) := by
              rw [hks, hstr2]
          _ = (c :: s2New).flatMap encBits ++ List.replicate lenF false
                ++ bitsOfBytes ((byte :: rest).drop (1 + d1 + d2)) := by
              rw [hdrop, List.flatMap_cons, henc]
              simp only [List.cons_append, List.append_assoc,
                List.singleton_append, List.nil_append]

/-- C7: soundness of the compressed decoder against the canonical
encoding: whenever `decode_sig_compressed` accepts, the bit stream of
the bytes it read is exactly the canonical sign/low-bits/unary encoding
of the 512 returned coefficients followed by fewer than eight zero
padding bits.  By contraposition this confirms every rejection clause:
a magnitude above 2047, a negative-zero encoding (the canonical image
of 0 has sign bit 0), and nonzero leftover bits all make the stream
non-canonical and are rejected; and the returned byte count `v` is the
number of bytes actually read, the encoding plus padding ending exactly
at byte `v`. -/
theorem decode_sig_compressed_spec (data : List Nat) (v : Nat)
    (s2 : List Int) (hb : ∀ x ∈ data, x < 256) :
    decode_sig_compressed data = .ok (v, s2) →
      s2.length = 512 ∧ (∀ c ∈ s2, c.natAbs ≤ 2047) ∧ v ≤ data.length ∧
      ∃ pad : List Bool, pad.length < 8 ∧ (∀ x ∈ pad, x = false) ∧
        bitsOfBytes (data.take v) = s2.flatMap encBits ++ pad := by
  intro h
  rw [decode_sig_compressed] at h
  obtain ⟨s2New, d, lenF, hs2T, hlen, hbnd, hd, hvT, hlF, hstr⟩ :=
    comp_loop_stream 512 data 0 0 0 [] v s2 hb (by omega) h
  rw [List.nil_append] at hs2T
  subst hs2T
  have hdv : d = v := by omega
  subst hdv
  refine ⟨hlen, hbnd, by omega, List.replicate lenF false,
    by simp; omega, fun x hx => List.eq_of_mem_replicate hx, ?_⟩
  rw [stream] at hstr
  rw [show bitsBE 0 0 = [] from rfl, List.nil_append] at hstr
  have hsplit : bitsOfBytes data
      = bitsOfBytes (data.take d) ++ bitsOfBytes (data.drop d) := by
    rw [bitsOfBytes, bitsOfBytes, bitsOfBytes, ← List.flatMap_append,
      List.take_append_drop]
  rw [hsplit] at hstr
  exact List.append_cancel_right hstr

/-- Witness for C7 at the canonical zero signature body: the decoder
reads all 576 bytes and the bit stream equals the 512 zero-coefficient
encodings plus padding. -/
theorem decode_sig_compressed_spec_witness :
    (List.replicate 512 (0 : Int)).length = 512 ∧
    (∀ c ∈ List.replicate 512 (0 : Int), c.natAbs ≤ 2047) ∧
    576 ≤ zeroBody.length ∧
    ∃ pad : List Bool, pad.length < 8 ∧ (∀ x ∈ pad, x = false) ∧
      bitsOfBytes (zeroBody.take 576)
        = (List.replicate 512 (0 : Int)).flatMap encBits ++ pad :=
  decode_sig_compressed_spec zeroBody 576 (List.replicate 512 0)
    (by
      intro x hx
      rw [zeroBody, List.mem_flatten] at hx
      obtain ⟨l, hl, hxl⟩ := hx
      rw [List.eq_of_mem_replicate hl] at hxl
      simp only [List.mem_cons, List.not_mem_nil, or_false] at hxl
      rcases hxl with h|h|h|h|h|h|h|h|h <;> omega)
    (by
      have hz := decode_comp_zeroBody []
      rwa [List.append_nil] at hz)

end StellarPQ
